import Mathlib

/-!
# Verification of the pippin partition engine against its specification

This file gives a shallow embedding of the pippin repository's commit-log
codec (`src/readwrite/commitlog.rs`), snapshot codec
(`src/readwrite/snapshot.rs`), partition engine (`src/detail/part.rs`) and
snapshot policy (`src/detail/part.rs`, `src/control.rs`), together with
theorems settling the specification's claims about them.

Conventions of the embedding:

* A byte stream is a `List Nat` (each entry a byte value); machine integers
  are `Nat` with explicit bounds (`< 2^32`, `< 2^64`) where the Rust types
  impose them.  Big-endian encoding is made explicit (`toBE`, `fromBE`).
* The checksum primitive (`src/sum.rs`, not part of the sources provided)
  is *modelled from the spec*: the spec fixes it as a 32-byte content hash
  (SHA-256).  All definitions are parameterised over an arbitrary function
  `hash : List Nat → List Nat` whose outputs have length 32; every theorem
  below is generic in `hash`, and concrete evaluations instantiate it with
  the executable stand-in `testHash`.
* Fallible code returns `Except`; all failures of the codecs are `RErr`
  values, corresponding to the `Error::Read` results of the Rust code.
-/

set_option maxRecDepth 4000

namespace Pippin

/-- A checksum value: a list of byte values (32 bytes for real sums). -/
abbrev Sum := List Nat

/-- Big-endian encoding of `n` into `k` bytes (`byteorder::BigEndian` with
`write_uNN`): the low byte is written last, and `n` is truncated mod
`256^k`. -/
def toBE : Nat → Nat → List Nat
  | 0, _ => []
  | k + 1, n => toBE k (n / 256) ++ [n % 256]

/-- Big-endian decoding (`byteorder::BigEndian::read_uNN`). -/
def fromBE (l : List Nat) : Nat := l.foldl (fun a b => 256 * a + b) 0

@[simp] theorem toBE_length (k n : Nat) : (toBE k n).length = k := by
  induction k generalizing n with
  | zero => simp [toBE]
  | succ k ih => simp [toBE, ih]

theorem fromBE_append (l₁ l₂ : List Nat) :
    fromBE (l₁ ++ l₂) = l₂.foldl (fun a b => 256 * a + b) (fromBE l₁) := by
  simp [fromBE, List.foldl_append]

theorem fromBE_snoc (l : List Nat) (b : Nat) :
    fromBE (l ++ [b]) = 256 * fromBE l + b := by
  simp [fromBE_append, List.foldl]

theorem fromBE_toBE (k n : Nat) : fromBE (toBE k n) = n % 256 ^ k := by
  induction k generalizing n with
  | zero => simp [toBE, fromBE, List.foldl, Nat.mod_one]
  | succ k ih =>
      rw [toBE, fromBE_snoc, ih]
      have h256 : (0:Nat) < 256 := by norm_num
      calc 256 * (n / 256 % 256 ^ k) + n % 256
          = n % 256 + 256 * (n / 256 % 256 ^ k) := by ring
        _ = n % (256 * 256 ^ k) := (Nat.mod_mul).symm
        _ = n % 256 ^ (k + 1) := by ring_nf

theorem fromBE_toBE_of_lt {k n : Nat} (h : n < 256 ^ k) :
    fromBE (toBE k n) = n := by
  rw [fromBE_toBE, Nat.mod_eq_of_lt h]

/-- A list of genuine bytes (each `< 256`) of length `k` is exactly the
big-endian encoding of its value. -/
theorem toBE_fromBE {l : List Nat} (hb : ∀ b ∈ l, b < 256) :
    toBE l.length (fromBE l) = l := by
  induction l using List.reverseRecOn with
  | nil => simp [toBE, fromBE, List.foldl]
  | append_singleton l b ih =>
      have hb' : ∀ x ∈ l, x < 256 := fun x hx => hb x (by simp [hx])
      have hbb : b < 256 := hb b (by simp)
      rw [List.length_append, List.length_singleton, toBE, fromBE_snoc]
      have h1 : (256 * fromBE l + b) / 256 = fromBE l := by
        rw [Nat.mul_add_div (by norm_num), Nat.div_eq_of_lt hbb]; omega
      have h2 : (256 * fromBE l + b) % 256 = b := by
        rw [Nat.mul_add_mod, Nat.mod_eq_of_lt hbb]
      rw [h1, h2, ih hb']

theorem toBE_lt (k n : Nat) : ∀ b ∈ toBE k n, b < 256 := by
  induction k generalizing n with
  | zero => simp [toBE]
  | succ k ih =>
      intro b hb
      rw [toBE] at hb
      rcases List.mem_append.1 hb with h | h
      · exact ih _ b h
      · simp at h; omega

/-- Padding length to the next 16-byte boundary, as computed by the codecs:
`16 * ((len + 15) / 16) - len`. -/
def padLen (n : Nat) : Nat := 16 * ((n + 15) / 16) - n

/-- The NUL padding written after a field of length `n`. -/
def padding (n : Nat) : List Nat := List.replicate (padLen n) 0

@[simp] theorem padding_length (n : Nat) : (padding n).length = padLen n := by
  simp [padding]

theorem padLen_lt (n : Nat) : padLen n < 16 := by
  unfold padLen; omega

/-- XOR of two checksums, byte by byte (`Sum::operator^`). -/
def xorS (a b : Sum) : Sum := List.zipWith Nat.xor a b

/-- The zero checksum (`Sum::zero`). -/
def zero32 : Sum := List.replicate 32 0

@[simp] theorem xorS_length (a b : Sum) :
    (xorS a b).length = min a.length b.length := by
  simp [xorS]

theorem xorS_zero32 {a : Sum} (ha : a.length = 32) : xorS zero32 a = a := by
  have : ∀ (n : Nat) (l : List Nat), l.length = n →
      List.zipWith Nat.xor (List.replicate n 0) l = l := by
    intro n
    induction n with
    | zero => intro l hl; simp [List.length_eq_zero.1 hl]
    | succ n ih =>
        intro l hl
        cases l with
        | nil => simp at hl
        | cons x xs =>
            simp only [List.replicate, List.zipWith]
            simp only [List.length_cons, Nat.succ.injEq] at hl
            have hx : Nat.xor 0 x = x := Nat.zero_xor x
            rw [hx, ih xs hl]
  exact this 32 a ha

theorem xorS_cancel {a b : Sum} (h : a.length = b.length) :
    xorS (xorS a b) b = a := by
  induction a generalizing b with
  | nil => simp [xorS]
  | cons x xs ih =>
      cases b with
      | nil => simp at h
      | cons y ys =>
          simp only [List.length_cons, Nat.succ.injEq] at h
          simp [xorS, List.zipWith] at ih ⊢
          exact ⟨Nat.xor_cancel_right y x, ih h⟩

/-- Slice `l[i..j]` of a byte buffer, as the Rust code's `buf[i..j]`. -/
def sl (l : List Nat) (i j : Nat) : List Nat := (l.drop i).take (j - i)

theorem sl_eq (l p x q : List Nat) (i j : Nat) (hl : l = p ++ (x ++ q))
    (hi : i = p.length) (hj : j = i + x.length) : sl l i j = x := by
  subst hl hi hj
  simp [sl, List.drop_left, Nat.add_sub_cancel_left, List.take_left]

theorem sl_suffix (l p x : List Nat) (i j : Nat) (hl : l = p ++ x)
    (hi : i = p.length) (hj : j = i + x.length) : sl l i j = x := by
  have : l = p ++ (x ++ []) := by simp [hl]
  exact sl_eq l p x [] i j this hi hj

/-- Read errors of the codecs.  In the Rust sources every failure modelled
here is an `Error::Read` (`ReadError`); we keep a small tag for clarity. -/
inductive RErr where
  | eof       -- unexpected end of input (`read_exact` failure)
  | bad       -- structural mismatch (wrong magic bytes / markers)
  | utf8      -- extra-metadata text was not valid UTF-8
  | sumBad    -- a checksum comparison failed
  | fuel      -- internal fuel exhaustion of the embedding (never reached
              -- on the runs the theorems below describe)
  deriving DecidableEq, Repr

/-- Reader state: `rem` is the unread suffix of the stream, `acc` the bytes
consumed so far through the checksumming wrapper (`sum::HashReader`). -/
structure RS where
  rem : List Nat
  acc : List Nat
  deriving DecidableEq, Repr

/-- Read exactly `n` bytes (`read_exact`): fails with EOF if fewer remain.
Consumed bytes are appended to `acc`, mirroring the streaming hasher. -/
def rdN (n : Nat) (s : RS) : Except RErr (List Nat × RS) :=
  if n ≤ s.rem.length then
    .ok (s.rem.take n, ⟨s.rem.drop n, s.acc ++ s.rem.take n⟩)
  else .error .eof

theorem rdN_pref {n : Nat} {xs : List Nat} (r a : List Nat)
    (h : xs.length = n) :
    rdN n ⟨xs ++ r, a⟩ = .ok (xs, ⟨r, a ++ xs⟩) := by
  subst h
  simp [rdN, List.take_left, List.drop_left]

theorem rdN_inv {n : Nat} {s s' : RS} {xs : List Nat}
    (h : rdN n s = .ok (xs, s')) :
    s.rem = xs ++ s'.rem ∧ s'.acc = s.acc ++ xs ∧ xs.length = n := by
  unfold rdN at h
  split at h
  · next hle =>
      injection h with h'
      cases h'
      refine ⟨by simp, by simp, List.length_take_of_le hle⟩
  · exact absurd h (by simp)

/-! ## Byte-string constants of the codecs -/

def bCOMMIT : List Nat := [67, 79, 77, 77, 73, 84]                 -- "COMMIT"
def bMERGE : List Nat := [77, 69, 82, 71, 69]                      -- "MERGE"
def bCNUM : List Nat := [67, 78, 85, 77]                           -- "CNUM"
def bXM : List Nat := [88, 77]                                     -- "XM"
def bTT : List Nat := [84, 84]                                     -- "TT"
def bELEMENTS : List Nat := [69, 76, 69, 77, 69, 78, 84, 83]       -- "ELEMENTS"
def bELT : List Nat := [69, 76, 84, 32]                            -- "ELT "
def bDEL : List Nat := [68, 69, 76, 0]
def bINS : List Nat := [73, 78, 83, 0]
def bREPL : List Nat := [82, 69, 80, 76]
def bMOVO : List Nat := [77, 79, 86, 79]
def bMOV : List Nat := [77, 79, 86, 0]
def bELTDATA : List Nat := [69, 76, 84, 32, 68, 65, 84, 65]        -- "ELT DATA"
def bNEWELT : List Nat := [78, 69, 87, 32, 69, 76, 84, 0]          -- "NEW ELT\0"
def bCOMMITLOG : List Nat :=
  [67, 79, 77, 77, 73, 84, 32, 76, 79, 71, 0, 0, 0, 0, 0, 0]      -- "COMMIT LOG" + 6 NUL
def bSNAPSHOT : List Nat := [83, 78, 65, 80, 83, 72, 79, 84]       -- "SNAPSHOT"
def bELEMENT0 : List Nat := [69, 76, 69, 77, 69, 78, 84, 0]        -- "ELEMENT\0"
def bBYTES : List Nat := [66, 89, 84, 69, 83, 0, 0, 0]             -- "BYTES\0\0\0"
def bSTATESUM : List Nat := [83, 84, 65, 84, 69, 83, 85, 77]       -- "STATESUM"

/-! ## Commit data model (`commit.rs` via its uses in
`commitlog.rs`/`part.rs`; element payloads are their serialised bytes) -/

/-- Extra commit metadata (`ExtraMeta`): none, or UTF-8 text carried here
as its byte serialisation. -/
inductive XM where
  | none
  | text (t : List Nat)
  deriving DecidableEq, Repr

/-- Commit metadata (`CommitMeta::new_explicit(number, secs, extra)`).
`secs` is the 64-bit big-endian bit pattern of the `i64` timestamp. -/
structure Meta where
  number : Nat
  secs : Nat
  xm : XM
  deriving DecidableEq, Repr

/-- An element-level change (`EltChange`).  The element type `E` is opaque
to the core; it is embedded as its serialised byte buffer. -/
inductive EltChange where
  | del
  | ins (data : List Nat)
  | repl (data : List Nat)
  | movedOut (newId : Nat)
  | moved (newId : Nat)
  deriving DecidableEq, Repr

/-- A commit (`Commit::new_explicit(statesum, parents, changes, meta)`).
`changes` keeps the (unique-keyed) map in its iteration order. -/
structure Commit where
  statesum : Sum
  parents : List Sum
  changes : List (Nat × EltChange)
  meta : Meta
  deriving DecidableEq, Repr

/-- Modelled from the spec: the per-element checksum `elt_sum = H(EltId ‖
payload)` (`Sum::elt_sum` / `Element::sum`; `src/sum.rs` is not among the
sources).  The element id is serialised as 8 big-endian bytes. -/
def eltSum (hash : List Nat → List Nat) (id : Nat) (data : List Nat) : Sum :=
  hash (toBE 8 id ++ data)

/-- UTF-8 validity of a byte list, as checked by `String::from_utf8`. -/
def validUtf8 : List Nat → Bool
  | [] => true
  | b :: r =>
    if b < 0x80 then validUtf8 r
    else if 0xC2 ≤ b ∧ b ≤ 0xDF then
      match r with
      | c1 :: r' => decide (0x80 ≤ c1 ∧ c1 ≤ 0xBF) && validUtf8 r'
      | [] => false
    else if b = 0xE0 then
      match r with
      | c1 :: c2 :: r' =>
          decide (0xA0 ≤ c1 ∧ c1 ≤ 0xBF) && decide (0x80 ≤ c2 ∧ c2 ≤ 0xBF)
            && validUtf8 r'
      | _ => false
    else if (0xE1 ≤ b ∧ b ≤ 0xEC) ∨ b = 0xEE ∨ b = 0xEF then
      match r with
      | c1 :: c2 :: r' =>
          decide (0x80 ≤ c1 ∧ c1 ≤ 0xBF) && decide (0x80 ≤ c2 ∧ c2 ≤ 0xBF)
            && validUtf8 r'
      | _ => false
    else if b = 0xED then
      match r with
      | c1 :: c2 :: r' =>
          decide (0x80 ≤ c1 ∧ c1 ≤ 0x9F) && decide (0x80 ≤ c2 ∧ c2 ≤ 0xBF)
            && validUtf8 r'
      | _ => false
    else if b = 0xF0 then
      match r with
      | c1 :: c2 :: c3 :: r' =>
          decide (0x90 ≤ c1 ∧ c1 ≤ 0xBF) && decide (0x80 ≤ c2 ∧ c2 ≤ 0xBF)
            && decide (0x80 ≤ c3 ∧ c3 ≤ 0xBF) && validUtf8 r'
      | _ => false
    else if 0xF1 ≤ b ∧ b ≤ 0xF3 then
      match r with
      | c1 :: c2 :: c3 :: r' =>
          decide (0x80 ≤ c1 ∧ c1 ≤ 0xBF) && decide (0x80 ≤ c2 ∧ c2 ≤ 0xBF)
            && decide (0x80 ≤ c3 ∧ c3 ≤ 0xBF) && validUtf8 r'
      | _ => false
    else if b = 0xF4 then
      match r with
      | c1 :: c2 :: c3 :: r' =>
          decide (0x80 ≤ c1 ∧ c1 ≤ 0x8F) && decide (0x80 ≤ c2 ∧ c2 ≤ 0xBF)
            && decide (0x80 ≤ c3 ∧ c3 ≤ 0xBF) && validUtf8 r'
      | _ => false
    else false

/-! ## Commit-log writer (`start_log`, `write_commit`) -/

section CommitLog

variable (hash : List Nat → List Nat)

/-- `start_log`: the 16-byte `COMMIT LOG\0\0\0\0\0\0` section marker. -/
def startLogBytes : List Nat := bCOMMITLOG

/-- First 16 bytes of a commit record: `COMMIT\0U` or `MERGE` + parent
count + `\0U`, followed by the 8-byte big-endian timestamp. -/
def commitHdr (c : Commit) : List Nat :=
  (if c.parents.length = 1 then bCOMMIT ++ [0, 85]
   else bMERGE ++ [c.parents.length, 0, 85]) ++ toBE 8 c.meta.secs

/-- Second 16 bytes: `CNUM` + u32 commit number + `XM` + 2 tag bytes +
u32 extra length.  The tag and payload are parameters so that both the
writer's output and streams carrying unknown tags can be described. -/
def commitM16 (tag : List Nat) (number xmLen : Nat) : List Nat :=
  bCNUM ++ (toBE 4 number ++ (bXM ++ (tag ++ toBE 4 xmLen)))

/-- Serialisation of one element change, as written by `write_commit`. -/
def changeBytes (ic : Nat × EltChange) : List Nat :=
  match ic.2 with
  | .del => (bELT ++ bDEL) ++ toBE 8 ic.1
  | .ins d =>
      ((bELT ++ bINS) ++ toBE 8 ic.1) ++
        ((bELTDATA ++ toBE 8 d.length) ++
          (d ++ (padding d.length ++ eltSum hash ic.1 d)))
  | .repl d =>
      ((bELT ++ bREPL) ++ toBE 8 ic.1) ++
        ((bELTDATA ++ toBE 8 d.length) ++
          (d ++ (padding d.length ++ eltSum hash ic.1 d)))
  | .movedOut n => ((bELT ++ bMOVO) ++ toBE 8 ic.1) ++ (bNEWELT ++ toBE 8 n)
  | .moved n => ((bELT ++ bMOV) ++ toBE 8 ic.1) ++ (bNEWELT ++ toBE 8 n)

/-- The checksummed body of a commit record, with an explicit
extra-metadata tag and payload (the writer only ever produces tag
`\0\0` with empty payload, or `TT` with the text bytes). -/
def commitBodyTagged (tag xd : List Nat) (c : Commit) : List Nat :=
  commitHdr c ++
    (commitM16 tag c.meta.number xd.length ++
      (xd ++
        (padding xd.length ++
          (c.parents.flatten ++
            ((bELEMENTS ++ toBE 8 c.changes.length) ++
              ((c.changes.map (changeBytes hash)).flatten ++ c.statesum))))))

/-- Tag bytes written for an `ExtraMeta` value: `\0\0` for none, `TT` for
text. -/
def xmTag : XM → List Nat
  | .none => [0, 0]
  | .text _ => bTT

/-- Extra-metadata payload bytes written for an `ExtraMeta` value. -/
def xmData : XM → List Nat
  | .none => []
  | .text t => t

/-- `write_commit`: the body followed by the 32-byte streaming checksum of
the body (`HashWriter`). -/
def writeCommit (c : Commit) : List Nat :=
  commitBodyTagged hash (xmTag c.meta.xm) (xmData c.meta.xm) c ++
    hash (commitBodyTagged hash (xmTag c.meta.xm) (xmData c.meta.xm) c)

/-- Well-formedness of the extra metadata: text is valid UTF-8 (it comes
from a Rust `String`) and its length fits a `u32` (asserted on write). -/
def xmWF : XM → Prop
  | .none => True
  | .text t => validUtf8 t = true ∧ t.length < 2 ^ 32

instance : ∀ x : XM, Decidable (xmWF x) := fun x => by
  cases x with
  | none => exact isTrue trivial
  | text t => unfold xmWF; infer_instance

/-- Well-formedness of one change entry: ids and lengths fit `u64`. -/
def chWF : Nat × EltChange → Prop
  | (id, .del) => id < 2 ^ 64
  | (id, .ins d) => id < 2 ^ 64 ∧ d.length < 2 ^ 64
  | (id, .repl d) => id < 2 ^ 64 ∧ d.length < 2 ^ 64
  | (id, .movedOut n) => id < 2 ^ 64 ∧ n < 2 ^ 64
  | (id, .moved n) => id < 2 ^ 64 ∧ n < 2 ^ 64

instance : ∀ ic : Nat × EltChange, Decidable (chWF ic) := fun ic => by
  rcases ic with ⟨id, ch⟩
  cases ch <;> (unfold chWF; infer_instance)

/-- Well-formedness of a commit, reflecting invariants the Rust types give
for free: parent count fits the format (asserted by `write_commit`),
sums are 32 bytes, integers fit their machine types. -/
def CWF (c : Commit) : Prop :=
  1 ≤ c.parents.length ∧ c.parents.length ≤ 255 ∧
  (∀ p ∈ c.parents, p.length = 32) ∧
  c.statesum.length = 32 ∧
  c.meta.number < 2 ^ 32 ∧ c.meta.secs < 2 ^ 64 ∧
  xmWF c.meta.xm ∧
  c.changes.length < 2 ^ 64 ∧
  (∀ ic ∈ c.changes, chWF ic)

instance (c : Commit) : Decidable (CWF c) := by
  unfold CWF; infer_instance

/-! ## Commit-log reader (`read_log`) -/

/-- Parse one element change (the per-change block of `read_log`). -/
def parseChange (s : RS) : Except RErr ((Nat × EltChange) × RS) := do
  let (b, s) ← rdN 16 s
  if sl b 0 4 = bELT then
    let id := fromBE (sl b 8 16)
    let op := sl b 4 8
    if op = bDEL then
      .ok ((id, .del), s)
    else if op = bINS ∨ op = bREPL then do
      let (b2, s) ← rdN 16 s
      if sl b2 0 8 = bELTDATA then
        let len := fromBE (sl b2 8 16)
        let (d, s) ← rdN len s
        let (_, s) ← rdN (padLen len) s
        let (sb, s) ← rdN 32 s
        if eltSum hash id d = sb then
          .ok ((id, if op = bINS then .ins d else .repl d), s)
        else .error .sumBad
      else .error .bad
    else if op = bMOVO ∨ op = bMOV then do
      let (b2, s) ← rdN 16 s
      if sl b2 0 8 = bNEWELT then
        .ok ((id, if op = bMOVO then .movedOut (fromBE (sl b2 8 16))
                  else .moved (fromBE (sl b2 8 16))), s)
      else .error .bad
    else .error .bad
  else .error .bad

/-- Parse `n` element changes, accumulating them in read order (the Rust
code inserts them into a `HashMap`; keys written from a map are unique). -/
def parseChanges : Nat → RS → List (Nat × EltChange) →
    Except RErr (List (Nat × EltChange) × RS)
  | 0, s, acc => .ok (acc, s)
  | n + 1, s, acc => do
      let (ic, s) ← parseChange hash s
      parseChanges n s (acc ++ [ic])

/-- Parse `n` parent state-sums (32 bytes each, `Sum::load`). -/
def parseSums : Nat → RS → List Sum → Except RErr (List Sum × RS)
  | 0, s, acc => .ok (acc, s)
  | n + 1, s, acc => do
      let (b, s') ← rdN 32 s
      parseSums n s' (acc ++ [b])

/-- Parse one commit record from the remaining stream, starting a fresh
streaming checksum (`HashReader::new`); returns the commit and the suffix
after the record's trailing checksum. -/
def parseCommit (rem : List Nat) : Except RErr (Commit × List Nat) := do
  let s : RS := ⟨rem, []⟩
  let (b1, s) ← rdN 16 s
  let nPar ←
    (if sl b1 0 6 = bCOMMIT then Except.ok 1
     else if sl b1 0 5 = bMERGE then
       (let n := fromBE (sl b1 5 6)
        if n < 2 then Except.error RErr.bad else Except.ok n)
     else Except.error RErr.bad)
  if sl b1 6 8 = [0, 85] then do
    let secs := fromBE (sl b1 8 16)
    let (b2, s) ← rdN 16 s
    if sl b2 0 4 = bCNUM then do
      let cnum := fromBE (sl b2 4 8)
      if sl b2 8 10 = bXM then do
        let isTT := sl b2 10 12 = bTT
        let xmLen := fromBE (sl b2 12 16)
        let (xd, s) ← rdN xmLen s
        let xm ←
          (if isTT then
            (if validUtf8 xd then Except.ok (XM.text xd)
             else Except.error RErr.utf8)
           else Except.ok XM.none)
        let (_, s) ← rdN (padLen xmLen) s
        let (ps, s) ← parseSums nPar s []
        let (b3, s) ← rdN 16 s
        if sl b3 0 8 = bELEMENTS then do
          let nCh := fromBE (sl b3 8 16)
          let (chs, s) ← parseChanges hash nCh s []
          let (ss, s) ← rdN 32 s
          if 32 ≤ s.rem.length then
            if sl s.rem 0 32 = hash s.acc then
              .ok (⟨ss, ps, chs, ⟨cnum, secs, xm⟩⟩, s.rem.drop 32)
            else .error .sumBad
          else .error .eof
        else .error .bad
      else .error .bad
    else .error .bad
  else .error .bad

/-- The commit-reading loop of `read_log`: EOF at a record boundary ends
the log; the `Vec<Commit>` receiver always continues. -/
def readLogLoop : Nat → List Commit → List Nat → Except RErr (List Commit)
  | _, acc, [] => .ok acc
  | 0, _, _ :: _ => .error .fuel
  | f + 1, acc, b :: bs => do
      let (c, rem) ← parseCommit hash (b :: bs)
      readLogLoop f (acc ++ [c]) rem

/-- `read_log`: checks the 16-byte `COMMIT LOG` section marker, then reads
commit records until EOF. -/
def readLog (bytes : List Nat) : Except RErr (List Commit) :=
  if 16 ≤ bytes.length then
    if sl bytes 0 16 = bCOMMITLOG then
      readLogLoop hash bytes.length [] (bytes.drop 16)
    else .error .bad
  else .error .eof

end CommitLog

instance {e a : Type} [DecidableEq e] [DecidableEq a] : DecidableEq (Except e a) :=
  fun x y =>
    match x, y with
    | .ok u, .ok v =>
        match decEq u v with
        | isTrue h => isTrue (h ▸ rfl)
        | isFalse h => isFalse (fun hh => h (Except.ok.inj hh))
    | .error u, .error v =>
        match decEq u v with
        | isTrue h => isTrue (h ▸ rfl)
        | isFalse h => isFalse (fun hh => h (Except.error.inj hh))
    | .ok _, .error _ => isFalse (fun h => Except.noConfusion h)
    | .error _, .ok _ => isFalse (fun h => Except.noConfusion h)

/-- An executable stand-in instance for the abstract checksum parameter,
used only to evaluate the definitions at concrete inputs: one byte of the
input length followed by 31 zero bytes. -/
def testHash (l : List Nat) : List Nat := l.length % 256 :: List.replicate 31 0

theorem sl_zero (x q : List Nat) (j : Nat) (hj : j = x.length) :
    sl (x ++ q) 0 j = x := by
  subst hj; simp [sl, List.take_left]

theorem fromBE_toBE64 {n : Nat} (h : n < 2 ^ 64) : fromBE (toBE 8 n) = n :=
  fromBE_toBE_of_lt (by norm_num at h ⊢; omega)

theorem parseChange_enc (hash : List Nat → List Nat)
    (hlen : ∀ l, (hash l).length = 32) (ic : Nat × EltChange) (h : chWF ic)
    (r a : List Nat) :
    parseChange hash ⟨changeBytes hash ic ++ r, a⟩ =
      .ok (ic, ⟨r, a ++ changeBytes hash ic⟩) := by
  obtain ⟨id, ch⟩ := ic
  cases ch with
  | del =>
      have hid : id < 2 ^ 64 := h
      have hle : ((bELT ++ bDEL) ++ toBE 8 id).length = 16 := by simp [bELT, bDEL]
      have e0 : sl ((bELT ++ bDEL) ++ toBE 8 id) 0 4 = bELT :=
        sl_eq _ [] bELT (bDEL ++ toBE 8 id) 0 4 (by simp) rfl rfl
      have e1 : sl ((bELT ++ bDEL) ++ toBE 8 id) 4 8 = bDEL :=
        sl_eq _ bELT bDEL (toBE 8 id) 4 8 (by simp) rfl rfl
      have e2 : sl ((bELT ++ bDEL) ++ toBE 8 id) 8 16 = toBE 8 id :=
        sl_suffix _ (bELT ++ bDEL) (toBE 8 id) 8 16 rfl (by simp [bELT, bDEL]) (by simp)
      simp only [changeBytes]
      rw [parseChange, rdN_pref _ _ hle]
      simp only [Bind.bind, Except.bind, e0, e1, e2, fromBE_toBE64 hid,
        eq_self_iff_true, if_true]
      try simp [changeBytes, List.append_assoc]
  | ins d =>
      obtain ⟨hid, hd⟩ := h
      have hstream : changeBytes hash (id, .ins d) ++ r =
          ((bELT ++ bINS) ++ toBE 8 id) ++
            (((bELTDATA ++ toBE 8 d.length)) ++
              (d ++ (padding d.length ++ (eltSum hash id d ++ r)))) := by
        simp [changeBytes, List.append_assoc]
      have hle1 : ((bELT ++ bINS) ++ toBE 8 id).length = 16 := by simp [bELT, bINS]
      have hle2 : ((bELTDATA ++ toBE 8 d.length)).length = 16 := by simp [bELTDATA]
      have e0 : sl ((bELT ++ bINS) ++ toBE 8 id) 0 4 = bELT :=
        sl_eq _ [] bELT (bINS ++ toBE 8 id) 0 4 (by simp) rfl rfl
      have e1 : sl ((bELT ++ bINS) ++ toBE 8 id) 4 8 = bINS :=
        sl_eq _ bELT bINS (toBE 8 id) 4 8 (by simp) rfl rfl
      have e2 : sl ((bELT ++ bINS) ++ toBE 8 id) 8 16 = toBE 8 id :=
        sl_suffix _ (bELT ++ bINS) (toBE 8 id) 8 16 rfl (by simp [bELT, bINS]) (by simp)
      have f0 : sl ((bELTDATA ++ toBE 8 d.length)) 0 8 = bELTDATA :=
        sl_eq _ [] bELTDATA (toBE 8 d.length) 0 8 (by simp) rfl rfl
      have f1 : sl ((bELTDATA ++ toBE 8 d.length)) 8 16 = toBE 8 d.length :=
        sl_suffix _ bELTDATA (toBE 8 d.length) 8 16 rfl (by simp [bELTDATA]) (by simp)
      have hes : (eltSum hash id d).length = 32 := hlen _
      rw [hstream, parseChange, rdN_pref _ _ hle1]
      simp only [Bind.bind, Except.bind, e0, e1, e2, fromBE_toBE64 hid,
        eq_self_iff_true, if_true,
        eq_false (by decide : ¬(bINS = bDEL)), if_false, true_or]
      rw [rdN_pref _ _ hle2]
      simp only [Bind.bind, Except.bind, f0, f1, fromBE_toBE64 hd,
        eq_self_iff_true, if_true]
      rw [rdN_pref _ _ (rfl : d.length = d.length)]
      simp only [Bind.bind, Except.bind]
      rw [rdN_pref _ _ (padding_length d.length)]
      simp only [Bind.bind, Except.bind]
      rw [rdN_pref _ _ hes]
      simp only [Bind.bind, Except.bind, eq_self_iff_true, if_true]
      try simp [changeBytes, List.append_assoc]
  | repl d =>
      obtain ⟨hid, hd⟩ := h
      have hstream : changeBytes hash (id, .repl d) ++ r =
          ((bELT ++ bREPL) ++ toBE 8 id) ++
            (((bELTDATA ++ toBE 8 d.length)) ++
              (d ++ (padding d.length ++ (eltSum hash id d ++ r)))) := by
        simp [changeBytes, List.append_assoc]
      have hle1 : ((bELT ++ bREPL) ++ toBE 8 id).length = 16 := by simp [bELT, bREPL]
      have hle2 : ((bELTDATA ++ toBE 8 d.length)).length = 16 := by simp [bELTDATA]
      have e0 : sl ((bELT ++ bREPL) ++ toBE 8 id) 0 4 = bELT :=
        sl_eq _ [] bELT (bREPL ++ toBE 8 id) 0 4 (by simp) rfl rfl
      have e1 : sl ((bELT ++ bREPL) ++ toBE 8 id) 4 8 = bREPL :=
        sl_eq _ bELT bREPL (toBE 8 id) 4 8 (by simp) rfl rfl
      have e2 : sl ((bELT ++ bREPL) ++ toBE 8 id) 8 16 = toBE 8 id :=
        sl_suffix _ (bELT ++ bREPL) (toBE 8 id) 8 16 rfl (by simp [bELT, bREPL]) (by simp)
      have f0 : sl ((bELTDATA ++ toBE 8 d.length)) 0 8 = bELTDATA :=
        sl_eq _ [] bELTDATA (toBE 8 d.length) 0 8 (by simp) rfl rfl
      have f1 : sl ((bELTDATA ++ toBE 8 d.length)) 8 16 = toBE 8 d.length :=
        sl_suffix _ bELTDATA (toBE 8 d.length) 8 16 rfl (by simp [bELTDATA]) (by simp)
      have hes : (eltSum hash id d).length = 32 := hlen _
      rw [hstream, parseChange, rdN_pref _ _ hle1]
      simp only [Bind.bind, Except.bind, e0, e1, e2, fromBE_toBE64 hid,
        eq_self_iff_true, if_true,
        eq_false (by decide : ¬(bREPL = bDEL)), if_false,
        eq_false (by decide : ¬(bREPL = bINS)), false_or, or_true]
      rw [rdN_pref _ _ hle2]
      simp only [Bind.bind, Except.bind, f0, f1, fromBE_toBE64 hd,
        eq_self_iff_true, if_true]
      rw [rdN_pref _ _ (rfl : d.length = d.length)]
      simp only [Bind.bind, Except.bind]
      rw [rdN_pref _ _ (padding_length d.length)]
      simp only [Bind.bind, Except.bind]
      rw [rdN_pref _ _ hes]
      simp only [Bind.bind, Except.bind, eq_self_iff_true, if_true,
        eq_false (by decide : ¬(bREPL = bINS)), if_false]
      try simp [changeBytes, List.append_assoc]
  | movedOut nid =>
      obtain ⟨hid, hn⟩ := h
      have hstream : changeBytes hash (id, .movedOut nid) ++ r =
          ((bELT ++ bMOVO) ++ toBE 8 id) ++ ((bNEWELT ++ toBE 8 nid) ++ r) := by
        simp [changeBytes, List.append_assoc]
      have hle1 : ((bELT ++ bMOVO) ++ toBE 8 id).length = 16 := by simp [bELT, bMOVO]
      have hle2 : (bNEWELT ++ toBE 8 nid).length = 16 := by simp [bNEWELT]
      have e0 : sl ((bELT ++ bMOVO) ++ toBE 8 id) 0 4 = bELT :=
        sl_eq _ [] bELT (bMOVO ++ toBE 8 id) 0 4 (by simp) rfl rfl
      have e1 : sl ((bELT ++ bMOVO) ++ toBE 8 id) 4 8 = bMOVO :=
        sl_eq _ bELT bMOVO (toBE 8 id) 4 8 (by simp) rfl rfl
      have e2 : sl ((bELT ++ bMOVO) ++ toBE 8 id) 8 16 = toBE 8 id :=
        sl_suffix _ (bELT ++ bMOVO) (toBE 8 id) 8 16 rfl (by simp [bELT, bMOVO]) (by simp)
      have f0 : sl (bNEWELT ++ toBE 8 nid) 0 8 = bNEWELT :=
        sl_eq _ [] bNEWELT (toBE 8 nid) 0 8 (by simp) rfl rfl
      have f1 : sl (bNEWELT ++ toBE 8 nid) 8 16 = toBE 8 nid :=
        sl_suffix _ bNEWELT (toBE 8 nid) 8 16 rfl (by simp [bNEWELT]) (by simp)
      rw [hstream, parseChange, rdN_pref _ _ hle1]
      simp only [Bind.bind, Except.bind, e0, e1, e2, fromBE_toBE64 hid,
        eq_self_iff_true, if_true,
        eq_false (by decide : ¬(bMOVO = bDEL)), if_false,
        eq_false (by decide : ¬(bMOVO = bINS)),
        eq_false (by decide : ¬(bMOVO = bREPL)), false_or, or_false, true_or]
      rw [rdN_pref _ _ hle2]
      simp only [Bind.bind, Except.bind, f0, f1, fromBE_toBE64 hn,
        eq_self_iff_true, if_true]
      try simp [changeBytes, List.append_assoc]
  | moved nid =>
      obtain ⟨hid, hn⟩ := h
      have hstream : changeBytes hash (id, .moved nid) ++ r =
          ((bELT ++ bMOV) ++ toBE 8 id) ++ ((bNEWELT ++ toBE 8 nid) ++ r) := by
        simp [changeBytes, List.append_assoc]
      have hle1 : ((bELT ++ bMOV) ++ toBE 8 id).length = 16 := by simp [bELT, bMOV]
      have hle2 : (bNEWELT ++ toBE 8 nid).length = 16 := by simp [bNEWELT]
      have e0 : sl ((bELT ++ bMOV) ++ toBE 8 id) 0 4 = bELT :=
        sl_eq _ [] bELT (bMOV ++ toBE 8 id) 0 4 (by simp) rfl rfl
      have e1 : sl ((bELT ++ bMOV) ++ toBE 8 id) 4 8 = bMOV :=
        sl_eq _ bELT bMOV (toBE 8 id) 4 8 (by simp) rfl rfl
      have e2 : sl ((bELT ++ bMOV) ++ toBE 8 id) 8 16 = toBE 8 id :=
        sl_suffix _ (bELT ++ bMOV) (toBE 8 id) 8 16 rfl (by simp [bELT, bMOV]) (by simp)
      have f0 : sl (bNEWELT ++ toBE 8 nid) 0 8 = bNEWELT :=
        sl_eq _ [] bNEWELT (toBE 8 nid) 0 8 (by simp) rfl rfl
      have f1 : sl (bNEWELT ++ toBE 8 nid) 8 16 = toBE 8 nid :=
        sl_suffix _ bNEWELT (toBE 8 nid) 8 16 rfl (by simp [bNEWELT]) (by simp)
      rw [hstream, parseChange, rdN_pref _ _ hle1]
      simp only [Bind.bind, Except.bind, e0, e1, e2, fromBE_toBE64 hid,
        eq_self_iff_true, if_true,
        eq_false (by decide : ¬(bMOV = bDEL)), if_false,
        eq_false (by decide : ¬(bMOV = bINS)),
        eq_false (by decide : ¬(bMOV = bREPL)),
        eq_false (by decide : ¬(bMOV = bMOVO)), false_or, or_true]
      rw [rdN_pref _ _ hle2]
      simp only [Bind.bind, Except.bind, f0, f1, fromBE_toBE64 hn,
        eq_self_iff_true, if_true, eq_false (by decide : ¬(bMOV = bMOVO)), if_false]
      try simp [changeBytes, List.append_assoc]

theorem fromBE_toBE32 {n : Nat} (h : n < 2 ^ 32) : fromBE (toBE 4 n) = n :=
  fromBE_toBE_of_lt (by norm_num at h ⊢; omega)

theorem fromBE_single (b : Nat) : fromBE [b] = b := by
  simp [fromBE, List.foldl]

theorem parseSums_enc (ps : List Sum)
    (hps : ∀ p ∈ ps, p.length = 32) :
    ∀ (acc : List Sum) (r a : List Nat),
      parseSums ps.length ⟨ps.flatten ++ r, a⟩ acc =
        .ok (acc ++ ps, ⟨r, a ++ ps.flatten⟩) := by
  induction ps with
  | nil => intro acc r a; simp [parseSums]
  | cons p ps ih =>
      intro acc r a
      have hp : p.length = 32 := hps p (by simp)
      have hps' : ∀ q ∈ ps, q.length = 32 := fun q hq => hps q (by simp [hq])
      have hstream : (p :: ps).flatten ++ r = p ++ (ps.flatten ++ r) := by
        simp [List.append_assoc]
      rw [List.length_cons, hstream, parseSums, rdN_pref _ _ hp]
      simp only [Bind.bind, Except.bind]
      rw [ih hps' (acc ++ [p]) r (a ++ p)]
      simp [List.append_assoc]

theorem parseChanges_enc (hash : List Nat → List Nat)
    (hlen : ∀ l, (hash l).length = 32) (l : List (Nat × EltChange))
    (hl : ∀ ic ∈ l, chWF ic) :
    ∀ (acc : List (Nat × EltChange)) (r a : List Nat),
      parseChanges hash l.length ⟨(l.map (changeBytes hash)).flatten ++ r, a⟩ acc =
        .ok (acc ++ l, ⟨r, a ++ (l.map (changeBytes hash)).flatten⟩) := by
  induction l with
  | nil => intro acc r a; simp [parseChanges]
  | cons ic l ih =>
      intro acc r a
      have hic : chWF ic := hl ic (by simp)
      have hl' : ∀ jc ∈ l, chWF jc := fun jc hj => hl jc (by simp [hj])
      have hstream : ((ic :: l).map (changeBytes hash)).flatten ++ r =
          changeBytes hash ic ++ ((l.map (changeBytes hash)).flatten ++ r) := by
        simp [List.append_assoc]
      rw [List.length_cons, hstream, parseChanges,
        parseChange_enc hash hlen ic hic]
      simp only [Bind.bind, Except.bind]
      rw [ih hl' (acc ++ [ic]) r (a ++ changeBytes hash ic)]
      simp [List.append_assoc]

theorem parseCommit_enc (hash : List Nat → List Nat)
    (hlen : ∀ l, (hash l).length = 32)
    (tag xd : List Nat) (c : Commit)
    (htag : tag.length = 2)
    (hxd32 : xd.length < 2 ^ 32)
    (hutf : tag = bTT → validUtf8 xd = true)
    (hxm : c.meta.xm = (if tag = bTT then XM.text xd else XM.none))
    (hpar1 : 1 ≤ c.parents.length) (hpar255 : c.parents.length ≤ 255)
    (hps : ∀ p ∈ c.parents, p.length = 32)
    (hss : c.statesum.length = 32)
    (hnum : c.meta.number < 2 ^ 32)
    (hsecs : c.meta.secs < 2 ^ 64)
    (hnch : c.changes.length < 2 ^ 64)
    (hchs : ∀ ic ∈ c.changes, chWF ic)
    (r : List Nat) :
    parseCommit hash (commitBodyTagged hash tag xd c ++
        (hash (commitBodyTagged hash tag xd c) ++ r)) = .ok (c, r) := by
  have take32h : ∀ (x rr : List Nat), (hash x ++ rr).take 32 = hash x := by
    intro x rr; rw [← hlen x]; exact List.take_left _ _
  have drop32h : ∀ (x rr : List Nat), (hash x ++ rr).drop 32 = rr := by
    intro x rr; rw [← hlen x]; exact List.drop_left _ _
  have hm16len : (commitM16 tag c.meta.number xd.length).length = 16 := by
    simp [commitM16, bCNUM, bXM, htag]
  have m0 : sl (commitM16 tag c.meta.number xd.length) 0 4 = bCNUM :=
    sl_eq _ [] bCNUM (toBE 4 c.meta.number ++ (bXM ++ (tag ++ toBE 4 xd.length)))
      0 4 (by simp [commitM16]) rfl rfl
  have m1 : sl (commitM16 tag c.meta.number xd.length) 4 8 = toBE 4 c.meta.number :=
    sl_eq _ bCNUM (toBE 4 c.meta.number) (bXM ++ (tag ++ toBE 4 xd.length))
      4 8 (by simp [commitM16, List.append_assoc]) rfl (by simp)
  have m2 : sl (commitM16 tag c.meta.number xd.length) 8 10 = bXM :=
    sl_eq _ (bCNUM ++ toBE 4 c.meta.number) bXM (tag ++ toBE 4 xd.length)
      8 10 (by simp [commitM16, List.append_assoc]) (by simp [bCNUM]) rfl
  have m3 : sl (commitM16 tag c.meta.number xd.length) 10 12 = tag :=
    sl_eq _ ((bCNUM ++ toBE 4 c.meta.number) ++ bXM) tag (toBE 4 xd.length)
      10 12 (by simp [commitM16, List.append_assoc]) (by simp [bCNUM, bXM])
      (by rw [htag])
  have m4 : sl (commitM16 tag c.meta.number xd.length) 12 16 = toBE 4 xd.length :=
    sl_suffix _ (((bCNUM ++ toBE 4 c.meta.number) ++ bXM) ++ tag) (toBE 4 xd.length)
      12 16 (by simp [commitM16, List.append_assoc]) (by simp [bCNUM, bXM, htag])
      (by simp)
  have helen : (bELEMENTS ++ toBE 8 c.changes.length).length = 16 := by
    simp [bELEMENTS]
  have g0 : sl (bELEMENTS ++ toBE 8 c.changes.length) 0 8 = bELEMENTS :=
    sl_eq _ [] bELEMENTS (toBE 8 c.changes.length) 0 8 (by simp) rfl rfl
  have g1 : sl (bELEMENTS ++ toBE 8 c.changes.length) 8 16 = toBE 8 c.changes.length :=
    sl_suffix _ bELEMENTS (toBE 8 c.changes.length) 8 16 rfl (by simp [bELEMENTS])
      (by simp)
  by_cases hp1 : c.parents.length = 1
  · -- single-parent COMMIT header
    have hhdr : commitHdr c = (bCOMMIT ++ [0, 85]) ++ toBE 8 c.meta.secs := by
      rw [commitHdr, if_pos hp1]
    have hhlen : ((bCOMMIT ++ [0, 85]) ++ toBE 8 c.meta.secs).length = 16 := by
      simp [bCOMMIT]
    have s0 : sl ((bCOMMIT ++ [0, 85]) ++ toBE 8 c.meta.secs) 0 6 = bCOMMIT :=
      sl_eq _ [] bCOMMIT ([0, 85] ++ toBE 8 c.meta.secs) 0 6
        (by simp [List.append_assoc]) rfl rfl
    have s1 : sl ((bCOMMIT ++ [0, 85]) ++ toBE 8 c.meta.secs) 6 8 = [0, 85] :=
      sl_eq _ bCOMMIT [0, 85] (toBE 8 c.meta.secs) 6 8
        (by simp [List.append_assoc]) (by simp [bCOMMIT]) (by simp)
    have s2 : sl ((bCOMMIT ++ [0, 85]) ++ toBE 8 c.meta.secs) 8 16 =
        toBE 8 c.meta.secs :=
      sl_suffix _ (bCOMMIT ++ [0, 85]) (toBE 8 c.meta.secs) 8 16 rfl
        (by simp [bCOMMIT]) (by simp)
    have hstream : commitBodyTagged hash tag xd c ++
        (hash (commitBodyTagged hash tag xd c) ++ r) =
        ((bCOMMIT ++ [0, 85]) ++ toBE 8 c.meta.secs) ++
          (commitM16 tag c.meta.number xd.length ++
            (xd ++
              (padding xd.length ++
                (c.parents.flatten ++
                  ((bELEMENTS ++ toBE 8 c.changes.length) ++
                    ((c.changes.map (changeBytes hash)).flatten ++
                      (c.statesum ++
                        (hash (commitBodyTagged hash tag xd c) ++ r)))))))) := by
      simp [commitBodyTagged, hhdr, List.append_assoc]
    rw [parseCommit, hstream, rdN_pref _ _ hhlen]
    simp only [Bind.bind, Except.bind, s0, s1, s2, eq_self_iff_true, if_true,
      fromBE_toBE64 hsecs]
    rw [rdN_pref _ _ hm16len]
    simp only [Bind.bind, Except.bind, m0, m1, m2, m3, m4, eq_self_iff_true,
      if_true, fromBE_toBE32 hnum, fromBE_toBE32 hxd32]
    rw [rdN_pref _ _ (rfl : xd.length = xd.length)]
    simp only [Bind.bind, Except.bind]
    by_cases htt : tag = bTT
    · rw [if_pos htt, if_pos (hutf htt)]
      simp only [Bind.bind, Except.bind]
      rw [rdN_pref _ _ (padding_length xd.length)]
      simp only [Bind.bind, Except.bind]
      rw [show (1 : Nat) = c.parents.length from hp1.symm,
        parseSums_enc c.parents hps]
      simp only [Bind.bind, Except.bind]
      rw [rdN_pref _ _ helen]
      simp only [Bind.bind, Except.bind, g0, g1, eq_self_iff_true, if_true,
        fromBE_toBE64 hnch]
      rw [parseChanges_enc hash hlen c.changes hchs]
      simp only [Bind.bind, Except.bind]
      rw [rdN_pref _ _ hss]
      simp only [Bind.bind, Except.bind]
      have hok : c = ⟨c.statesum, c.parents, c.changes,
          ⟨c.meta.number, c.meta.secs, XM.text xd⟩⟩ := by
        rcases c with ⟨ss, ps, chs, ⟨n, sc, x⟩⟩
        simp at hxm ⊢
        rw [hxm, if_pos htt]
      simp [sl, take32h, drop32h, hlen, commitBodyTagged, commitM16, hhdr,
        List.append_assoc, ← hok]
    · rw [if_neg htt]
      simp only [Bind.bind, Except.bind]
      rw [rdN_pref _ _ (padding_length xd.length)]
      simp only [Bind.bind, Except.bind]
      rw [show (1 : Nat) = c.parents.length from hp1.symm,
        parseSums_enc c.parents hps]
      simp only [Bind.bind, Except.bind]
      rw [rdN_pref _ _ helen]
      simp only [Bind.bind, Except.bind, g0, g1, eq_self_iff_true, if_true,
        fromBE_toBE64 hnch]
      rw [parseChanges_enc hash hlen c.changes hchs]
      simp only [Bind.bind, Except.bind]
      rw [rdN_pref _ _ hss]
      simp only [Bind.bind, Except.bind]
      have hok : c = ⟨c.statesum, c.parents, c.changes,
          ⟨c.meta.number, c.meta.secs, XM.none⟩⟩ := by
        rcases c with ⟨ss, ps, chs, ⟨n, sc, x⟩⟩
        simp at hxm ⊢
        rw [hxm, if_neg htt]
      simp [sl, take32h, drop32h, hlen, commitBodyTagged, commitM16, hhdr,
        List.append_assoc, ← hok]
  · -- MERGE header
    have hn2 : 2 ≤ c.parents.length := by omega
    have hhdr : commitHdr c =
        (bMERGE ++ [c.parents.length, 0, 85]) ++ toBE 8 c.meta.secs := by
      rw [commitHdr, if_neg hp1]
    have hhlen : ((bMERGE ++ [c.parents.length, 0, 85]) ++
        toBE 8 c.meta.secs).length = 16 := by simp [bMERGE]
    have s0 : sl ((bMERGE ++ [c.parents.length, 0, 85]) ++ toBE 8 c.meta.secs)
        0 6 = bMERGE ++ [c.parents.length] :=
      sl_eq _ [] (bMERGE ++ [c.parents.length]) ([0, 85] ++ toBE 8 c.meta.secs)
        0 6 (by simp [List.append_assoc]) rfl (by simp [bMERGE])
    have s0' : sl ((bMERGE ++ [c.parents.length, 0, 85]) ++ toBE 8 c.meta.secs)
        0 5 = bMERGE :=
      sl_eq _ [] bMERGE ([c.parents.length, 0, 85] ++ toBE 8 c.meta.secs)
        0 5 (by simp [List.append_assoc]) rfl rfl
    have s05 : sl ((bMERGE ++ [c.parents.length, 0, 85]) ++ toBE 8 c.meta.secs)
        5 6 = [c.parents.length] :=
      sl_eq _ bMERGE [c.parents.length] ([0, 85] ++ toBE 8 c.meta.secs)
        5 6 (by simp [List.append_assoc]) rfl rfl
    have s1 : sl ((bMERGE ++ [c.parents.length, 0, 85]) ++ toBE 8 c.meta.secs)
        6 8 = [0, 85] :=
      sl_eq _ (bMERGE ++ [c.parents.length]) [0, 85] (toBE 8 c.meta.secs)
        6 8 (by simp [List.append_assoc]) (by simp [bMERGE]) (by simp)
    have s2 : sl ((bMERGE ++ [c.parents.length, 0, 85]) ++ toBE 8 c.meta.secs)
        8 16 = toBE 8 c.meta.secs :=
      sl_suffix _ (bMERGE ++ [c.parents.length, 0, 85]) (toBE 8 c.meta.secs)
        8 16 rfl (by simp [bMERGE]) (by simp)
    have hnotC : ¬(bMERGE ++ [c.parents.length] = bCOMMIT) := by
      simp [bMERGE, bCOMMIT]
    have hstream : commitBodyTagged hash tag xd c ++
        (hash (commitBodyTagged hash tag xd c) ++ r) =
        ((bMERGE ++ [c.parents.length, 0, 85]) ++ toBE 8 c.meta.secs) ++
          (commitM16 tag c.meta.number xd.length ++
            (xd ++
              (padding xd.length ++
                (c.parents.flatten ++
                  ((bELEMENTS ++ toBE 8 c.changes.length) ++
                    ((c.changes.map (changeBytes hash)).flatten ++
                      (c.statesum ++
                        (hash (commitBodyTagged hash tag xd c) ++ r)))))))) := by
      simp [commitBodyTagged, hhdr, List.append_assoc]
    rw [parseCommit, hstream, rdN_pref _ _ hhlen]
    simp only [Bind.bind, Except.bind, s0, s0', s05, s1, s2, eq_self_iff_true,
      if_true, fromBE_toBE64 hsecs, fromBE_single,
      eq_false hnotC, if_false]
    rw [if_neg (by omega : ¬(c.parents.length < 2))]
    simp only [Bind.bind, Except.bind]
    rw [rdN_pref _ _ hm16len]
    simp only [Bind.bind, Except.bind, m0, m1, m2, m3, m4, eq_self_iff_true,
      if_true, fromBE_toBE32 hnum, fromBE_toBE32 hxd32]
    rw [rdN_pref _ _ (rfl : xd.length = xd.length)]
    simp only [Bind.bind, Except.bind]
    by_cases htt : tag = bTT
    · rw [if_pos htt, if_pos (hutf htt)]
      simp only [Bind.bind, Except.bind]
      rw [rdN_pref _ _ (padding_length xd.length)]
      simp only [Bind.bind, Except.bind]
      rw [parseSums_enc c.parents hps]
      simp only [Bind.bind, Except.bind]
      rw [rdN_pref _ _ helen]
      simp only [Bind.bind, Except.bind, g0, g1, eq_self_iff_true, if_true,
        fromBE_toBE64 hnch]
      rw [parseChanges_enc hash hlen c.changes hchs]
      simp only [Bind.bind, Except.bind]
      rw [rdN_pref _ _ hss]
      simp only [Bind.bind, Except.bind]
      have hok : c = ⟨c.statesum, c.parents, c.changes,
          ⟨c.meta.number, c.meta.secs, XM.text xd⟩⟩ := by
        rcases c with ⟨ss, ps, chs, ⟨n, sc, x⟩⟩
        simp at hxm ⊢
        rw [hxm, if_pos htt]
      simp [sl, take32h, drop32h, hlen, commitBodyTagged, commitM16, hhdr,
        List.append_assoc, ← hok]
    · rw [if_neg htt]
      simp only [Bind.bind, Except.bind]
      rw [rdN_pref _ _ (padding_length xd.length)]
      simp only [Bind.bind, Except.bind]
      rw [parseSums_enc c.parents hps]
      simp only [Bind.bind, Except.bind]
      rw [rdN_pref _ _ helen]
      simp only [Bind.bind, Except.bind, g0, g1, eq_self_iff_true, if_true,
        fromBE_toBE64 hnch]
      rw [parseChanges_enc hash hlen c.changes hchs]
      simp only [Bind.bind, Except.bind]
      rw [rdN_pref _ _ hss]
      simp only [Bind.bind, Except.bind]
      have hok : c = ⟨c.statesum, c.parents, c.changes,
          ⟨c.meta.number, c.meta.secs, XM.none⟩⟩ := by
        rcases c with ⟨ss, ps, chs, ⟨n, sc, x⟩⟩
        simp at hxm ⊢
        rw [hxm, if_neg htt]
      simp [sl, take32h, drop32h, hlen, commitBodyTagged, commitM16, hhdr,
        List.append_assoc, ← hok]

theorem xmTag_len (x : XM) : (xmTag x).length = 2 := by
  cases x <;> simp [xmTag, bTT]

theorem xm_ite (x : XM) :
    x = (if xmTag x = bTT then XM.text (xmData x) else XM.none) := by
  cases x <;> simp [xmTag, xmData, bTT]

theorem commitHdr_len (c : Commit) : (commitHdr c).length = 16 := by
  unfold commitHdr; split <;> simp [bCOMMIT, bMERGE]

theorem writeCommit_len (hash : List Nat → List Nat) (c : Commit) :
    1 ≤ (writeCommit hash c).length := by
  have : (commitHdr c).length = 16 := commitHdr_len c
  simp [writeCommit, commitBodyTagged]
  omega

theorem flatten_writes_len (hash : List Nat → List Nat) (cs : List Commit) :
    cs.length ≤ ((cs.map (writeCommit hash)).flatten).length := by
  induction cs with
  | nil => simp
  | cons c cs ih =>
      have := writeCommit_len hash c
      simp [List.flatten_cons] at ih ⊢
      omega

theorem readLogLoop_enc (hash : List Nat → List Nat)
    (hlen : ∀ l, (hash l).length = 32) :
    ∀ (cs : List Commit) (f : Nat) (acc : List Commit),
      (∀ c ∈ cs, CWF c) → cs.length ≤ f →
      readLogLoop hash f acc ((cs.map (writeCommit hash)).flatten) =
        .ok (acc ++ cs) := by
  intro cs
  induction cs with
  | nil => intro f acc _ _; simp [readLogLoop]
  | cons c cs ih =>
      intro f acc hwf hf
      obtain ⟨hc, hcs⟩ : CWF c ∧ ∀ x ∈ cs, CWF x :=
        ⟨hwf c (by simp), fun x hx => hwf x (by simp [hx])⟩
      obtain ⟨f', rfl⟩ : ∃ f', f = f' + 1 := by
        cases f with
        | zero => simp at hf
        | succ f' => exact ⟨f', rfl⟩
      have hne : writeCommit hash c ≠ [] := by
        have := writeCommit_len hash c
        intro h; rw [h] at this; simp at this
      obtain ⟨b, t, hbt⟩ := List.exists_cons_of_ne_nil hne
      have hstream : ((c :: cs).map (writeCommit hash)).flatten =
          b :: (t ++ (cs.map (writeCommit hash)).flatten) := by
        simp [List.flatten_cons, hbt]
      rw [hstream, readLogLoop]
      have hback : b :: (t ++ (cs.map (writeCommit hash)).flatten) =
          commitBodyTagged hash (xmTag c.meta.xm) (xmData c.meta.xm) c ++
            (hash (commitBodyTagged hash (xmTag c.meta.xm) (xmData c.meta.xm) c) ++
              (cs.map (writeCommit hash)).flatten) := by
        have : b :: (t ++ (cs.map (writeCommit hash)).flatten) =
            writeCommit hash c ++ (cs.map (writeCommit hash)).flatten := by
          rw [hbt]; simp
        rw [this, writeCommit, List.append_assoc]
      rw [hback]
      obtain ⟨h1, h255, hps, hss, hnum, hsecs, hxmwf, hnch, hchs⟩ := hc
      have hxd32 : (xmData c.meta.xm).length < 2 ^ 32 := by
        cases hx : c.meta.xm with
        | none => simp [xmData]
        | text t' =>
            have := hxmwf
            rw [hx] at this
            exact this.2
      have hutf : xmTag c.meta.xm = bTT → validUtf8 (xmData c.meta.xm) = true := by
        cases hx : c.meta.xm with
        | none => intro h; exact absurd h (by simp [xmTag, bTT])
        | text t' =>
            intro _
            have := hxmwf
            rw [hx] at this
            simpa [xmData] using this.1
      rw [parseCommit_enc hash hlen (xmTag c.meta.xm) (xmData c.meta.xm) c
        (xmTag_len _) hxd32 hutf (xm_ite c.meta.xm) h1 h255 hps hss hnum hsecs
        hnch hchs]
      simp only [Bind.bind, Except.bind]
      rw [ih f' (acc ++ [c]) hcs (by simpa using hf)]
      simp

theorem readLog_enc (hash : List Nat → List Nat)
    (hlen : ∀ l, (hash l).length = 32) (cs : List Commit)
    (hwf : ∀ c ∈ cs, CWF c) :
    readLog hash (startLogBytes ++ (cs.map (writeCommit hash)).flatten) =
      .ok cs := by
  have hsll : startLogBytes.length = 16 := by simp [startLogBytes, bCOMMITLOG]
  have h16 : 16 ≤ (startLogBytes ++ (cs.map (writeCommit hash)).flatten).length := by
    simp [hsll]
  have hsl : sl (startLogBytes ++ (cs.map (writeCommit hash)).flatten) 0 16 =
      bCOMMITLOG :=
    sl_eq _ [] bCOMMITLOG ((cs.map (writeCommit hash)).flatten) 0 16
      (by simp [startLogBytes]) rfl rfl
  have hdrop : (startLogBytes ++ (cs.map (writeCommit hash)).flatten).drop 16 =
      (cs.map (writeCommit hash)).flatten := by
    rw [← hsll]; exact List.drop_left _ _
  rw [readLog, if_pos h16, if_pos hsl, hdrop]
  have hfuel : cs.length ≤
      (startLogBytes ++ (cs.map (writeCommit hash)).flatten).length := by
    have := flatten_writes_len hash cs
    simp [hsll] at this ⊢
    omega
  rw [readLogLoop_enc hash hlen cs _ [] hwf hfuel]
  simp

/-- A single unknown-tag commit record is accepted by `read_log`: the tag
is not checked against `\x00\x00`, and the `xm_len` payload bytes are read
and discarded, yielding `ExtraMeta::None`. -/
theorem readLog_unknownTag (hash : List Nat → List Nat)
    (hlen : ∀ l, (hash l).length = 32) (tag xd : List Nat) (c : Commit)
    (htag : tag.length = 2) (hne : tag ≠ bTT) (hxd : xd.length < 2 ^ 32)
    (hxm : c.meta.xm = XM.none) (hwf : CWF c) :
    readLog hash (startLogBytes ++
        (commitBodyTagged hash tag xd c ++
          hash (commitBodyTagged hash tag xd c))) = .ok [c] := by
  obtain ⟨h1, h255, hps, hss, hnum, hsecs, _, hnch, hchs⟩ := hwf
  have hsll : startLogBytes.length = 16 := by simp [startLogBytes, bCOMMITLOG]
  set X := commitBodyTagged hash tag xd c ++
    hash (commitBodyTagged hash tag xd c) with hX
  have h16 : 16 ≤ (startLogBytes ++ X).length := by simp [hsll]
  have hsl : sl (startLogBytes ++ X) 0 16 = bCOMMITLOG :=
    sl_eq _ [] bCOMMITLOG X 0 16 (by simp [startLogBytes]) rfl rfl
  have hdrop : (startLogBytes ++ X).drop 16 = X := by
    rw [← hsll]; exact List.drop_left _ _
  rw [readLog, if_pos h16, if_pos hsl, hdrop]
  have hlenX : 16 ≤ X.length := by
    rw [hX]
    simp [commitBodyTagged, commitHdr_len]
  have hne' : X ≠ [] := by
    intro h
    rw [h] at hlenX
    simp at hlenX
  obtain ⟨b, t, hbt⟩ := List.exists_cons_of_ne_nil hne'
  obtain ⟨f, hf⟩ : ∃ f, (startLogBytes ++ X).length = f + 1 := by
    cases hq : (startLogBytes ++ X).length with
    | zero => rw [hq] at h16; omega
    | succ f => exact ⟨f, rfl⟩
  rw [hf, hbt, readLogLoop]
  have hback : b :: t = commitBodyTagged hash tag xd c ++
      (hash (commitBodyTagged hash tag xd c) ++ []) := by
    rw [← hbt, hX]; simp
  rw [hback]
  have hxm' : c.meta.xm = (if tag = bTT then XM.text xd else XM.none) := by
    rw [if_neg hne, hxm]
  have hutf : tag = bTT → validUtf8 xd = true := fun h => absurd h hne
  rw [parseCommit_enc hash hlen tag xd c htag hxd hutf hxm' h1 h255 hps hss
    hnum hsecs hnch hchs]
  simp only [Bind.bind, Except.bind]
  simp [readLogLoop]

/-! ## Concrete inputs used by witnesses and counterexamples -/

/-- A well-formed single-parent commit (insertion, deletion, move-out),
with timestamp and commit number as in the repository's own unit test. -/
def wc1 : Commit :=
  ⟨List.replicate 32 9, [List.replicate 32 1],
   [(3, .ins [104, 105]), (4, .del), (5, .movedOut 7)],
   ⟨1, 123456, .none⟩⟩

/-- A well-formed two-parent merge commit with text extra metadata
`"123"`, a replacement and a moved element. -/
def wc2 : Commit :=
  ⟨List.replicate 32 8, [List.replicate 32 2, List.replicate 32 3],
   [(9, .repl [65]), (10, .moved 11)],
   ⟨2, 321654, .text [49, 50, 51]⟩⟩

/-- An empty commit used for the unknown-tag inputs. -/
def wc3 : Commit :=
  ⟨List.replicate 32 5, [List.replicate 32 4], [], ⟨7, 99, .none⟩⟩

/-- C1: writing a sequence of commits with `start_log` + `write_commit`
and reading the stream back with `read_log` returns exactly that sequence;
the hypotheses record the invariants the Rust types provide (1–255
parents, 32-byte sums, machine-integer bounds, UTF-8 text metadata). -/
theorem C1_commit_log_roundtrip (hash : List Nat → List Nat)
    (hlen : ∀ l, (hash l).length = 32) (cs : List Commit)
    (hwf : ∀ c ∈ cs, CWF c) :
    readLog hash (startLogBytes ++ (cs.map (writeCommit hash)).flatten) =
      .ok cs :=
  readLog_enc hash hlen cs hwf

/-- Witness for C1 at a concrete two-commit log (one single-parent commit,
one merge commit with text extra metadata). -/
theorem C1_commit_log_roundtrip_witness :
    (∀ l, (testHash l).length = 32) ∧ (∀ c ∈ [wc1, wc2], CWF c) ∧
    readLog testHash
        (startLogBytes ++ ([wc1, wc2].map (writeCommit testHash)).flatten) =
      .ok [wc1, wc2] :=
  ⟨fun l => by simp [testHash], by decide,
    C1_commit_log_roundtrip testHash (fun l => by simp [testHash]) [wc1, wc2]
      (by decide)⟩

/-- C9 counterexample: a commit record whose extra-metadata tag bytes are
`ZZ` (neither the no-extra marker `\x00\x00` nor `TT`), with three bytes
of unknown extra payload, is read *successfully* by `read_log` (the claim
says it must fail with a read error). -/
theorem C9_counterexample :
    ([90, 90] ≠ ([0, 0] : List Nat)) ∧ [90, 90] ≠ bTT ∧
    readLog testHash
        (startLogBytes ++
          (commitBodyTagged testHash [90, 90] [1, 2, 3] wc3 ++
            testHash (commitBodyTagged testHash [90, 90] [1, 2, 3] wc3))) =
      .ok [wc3] := by
  refine ⟨by decide, by decide, by decide⟩

/-- C9 amended: for every commit record whose extra-metadata tag bytes are
neither the no-extra marker nor `TT`, `read_log` silently ignores the
unknown tag: it reads and discards the `xm_len` payload bytes, treats the
extra metadata as `ExtraMeta::None`, and succeeds (no read error). -/
theorem C9_unknown_tag_ignored (hash : List Nat → List Nat)
    (hlen : ∀ l, (hash l).length = 32) (tag xd : List Nat) (c : Commit)
    (htag : tag.length = 2) (hne : tag ≠ bTT) (hxd : xd.length < 2 ^ 32)
    (hxm : c.meta.xm = XM.none) (hwf : CWF c) :
    readLog hash (startLogBytes ++
        (commitBodyTagged hash tag xd c ++
          hash (commitBodyTagged hash tag xd c))) = .ok [c] :=
  readLog_unknownTag hash hlen tag xd c htag hne hxd hxm hwf

/-- Witness for the amended C9 at tag bytes `QQ` with two payload bytes. -/
theorem C9_unknown_tag_ignored_witness :
    readLog testHash (startLogBytes ++
        (commitBodyTagged testHash [81, 81] [6, 6] wc3 ++
          testHash (commitBodyTagged testHash [81, 81] [6, 6] wc3))) =
      .ok [wc3] :=
  C9_unknown_tag_ignored testHash (fun l => by simp [testHash]) [81, 81]
    [6, 6] wc3 (by decide) (by decide) (by decide) (by decide) (by decide)

/-! ## Partition engine (`src/detail/part.rs`)

States and the state graph.  `states.rs` and `commit.rs` are not among the
sources, so `PartState`, the state-sum computation and `Commit::apply` /
`Commit::from_diff` are modelled from the spec (section 3): a `PartState`
holds parents, the element map (embedded as an association list of
(EltId, payload bytes)) and metadata; `elt_sum` is the XOR of the element
checksums, `meta_sum` a checksum over the metadata fields, and
`statesum = elt_sum XOR meta_sum`. -/

section Partition

variable (hash : List Nat → List Nat)

/-- Modelled from the spec: an immutable partition state (`PartState`). -/
structure PartState where
  parents : List Sum
  elts : List (Nat × List Nat)
  meta : Meta
  deriving DecidableEq, Repr

/-- XOR of the element checksums of an element map (spec invariant (ii)). -/
def eltXorOf (elts : List (Nat × List Nat)) : Sum :=
  elts.foldl (fun a e => xorS a (eltSum hash e.1 e.2)) zero32

/-- Modelled from the spec: serialisation of the metadata fields used for
`meta_sum` (commit number, timestamp, extra metadata). -/
def serializeMeta (m : Meta) : List Nat :=
  toBE 4 m.number ++ toBE 8 m.secs ++ xmData m.xm

/-- Modelled from the spec: `meta_sum`, a checksum over the metadata. -/
def metaSum (m : Meta) : Sum := hash (serializeMeta m)

/-- `statesum = elt_sum XOR meta_sum` (spec invariant (i)). -/
def stateSum (st : PartState) : Sum :=
  xorS (eltXorOf hash st.elts) (metaSum hash st.meta)

/-- A mutable partition state (`MutPartState`): the parent statesum it was
cloned from plus its element map; its running `elt_sum` is the XOR of its
element checksums. -/
structure MutPartState where
  parent : Sum
  elts : List (Nat × List Nat)
  deriving DecidableEq, Repr

/-- The partition's in-memory data (`Partition`): known states, tips,
the FIFO queue of unsaved commits and the snapshot-policy counters. -/
structure Part where
  states : List PartState
  tips : Finset (List Nat)
  unsaved : List Commit
  ssCommits : Nat
  ssEdits : Nat
  deriving DecidableEq

/-- `self.states.get(sum)`: look a state up by its statesum. -/
def lookupState (p : Part) (s : Sum) : Option PartState :=
  p.states.find? (fun st => stateSum hash st = s)

/-- `self.states.contains(sum)`. -/
def containsSum (p : Part) (s : Sum) : Bool :=
  p.states.any (fun st => stateSum hash st = s)

/-- Apply a single element change to an element map.  Modelled from the
spec: insert fails on a present id, replace/delete on an absent one;
`MovedOut` removes the element, `Moved` only records the new identity
(the spec does not give it a map effect). -/
def applyOne (elts : List (Nat × List Nat)) (ic : Nat × EltChange) :
    Option (List (Nat × List Nat)) :=
  match ic.2 with
  | .ins d =>
      if (elts.find? (fun e => e.1 = ic.1)).isSome then none
      else some (elts ++ [(ic.1, d)])
  | .repl d =>
      if (elts.find? (fun e => e.1 = ic.1)).isSome then
        some (elts.map (fun e => if e.1 = ic.1 then (ic.1, d) else e))
      else none
  | .del =>
      if (elts.find? (fun e => e.1 = ic.1)).isSome then
        some (elts.filter (fun e => ¬(e.1 = ic.1)))
      else none
  | .movedOut _ =>
      if (elts.find? (fun e => e.1 = ic.1)).isSome then
        some (elts.filter (fun e => ¬(e.1 = ic.1)))
      else none
  | .moved _ => some elts

/-- Apply all changes of a commit to a parent element map. -/
def applyChanges (chs : List (Nat × EltChange))
    (elts : List (Nat × List Nat)) : Option (List (Nat × List Nat)) :=
  chs.foldlM applyOne elts

/-- Modelled from the spec: `Commit::apply(parent)`: apply the changes,
build the new state with the commit's parents and metadata, and verify
that the produced statesum matches the commit's `statesum` field. -/
def Commit.apply (c : Commit) (par : PartState) : Option PartState := do
  let m ← applyChanges c.changes par.elts
  let st : PartState := ⟨c.parents, m, c.meta⟩
  if stateSum hash st = c.statesum then some st else none

/-- `add_pair(commit, state)`: queue the commit, retire the state's
parents from `tips`, add the new statesum as a tip, store the state and
bump the snapshot-policy counters. -/
def addPair (p : Part) (c : Commit) (st : PartState) : Part :=
  { states := p.states ++ [st]
    tips := insert (stateSum hash st) (st.parents.foldl Finset.erase p.tips)
    unsaved := p.unsaved ++ [c]
    ssCommits := p.ssCommits + 1
    ssEdits := p.ssEdits + c.changes.length }

/-- The error cases of `push_commit`/`push_state` (`PatchOp`). -/
inductive PatchOp where
  | sumClash
  | noParent
  | patchApply
  deriving DecidableEq, Repr

/-- `push_commit`: `SumClash` when the commit's statesum is already
present, `NoParent` when its first parent is absent, otherwise apply the
commit to the first parent and `add_pair` the result.  (The Rust code
panics on an empty parent list; commits always carry at least one.) -/
def pushCommit (p : Part) (c : Commit) : Part × Except PatchOp Unit :=
  if containsSum hash p c.statesum then (p, .error .sumClash)
  else
    match c.parents.head? with
    | none => (p, .error .noParent)
    | some fp =>
        match lookupState hash p fp with
        | none => (p, .error .noParent)
        | some par =>
            match Commit.apply hash c par with
            | none => (p, .error .patchApply)
            | some st => (addPair hash p c st, .ok ())

/-- Modelled from the spec: `Commit::from_diff`, the element-level diff
between a parent state and a mutated state (Insert/Replace/Delete). -/
def diffChanges (parElts newElts : List (Nat × List Nat)) :
    List (Nat × EltChange) :=
  (parElts.filter (fun e => (newElts.find? (fun x => x.1 = e.1)).isNone)).map
      (fun e => (e.1, EltChange.del)) ++
    newElts.filterMap (fun e =>
      match parElts.find? (fun x => x.1 = e.1) with
      | none => some (e.1, EltChange.ins e.2)
      | some old => if old.2 = e.2 then none else some (e.1, EltChange.repl e.2))

/-- `push_state`: look up the parent; if the mutated state's element sum
equals the parent's (`parent.statesum ^ parent.metasum == state.elt_sum`)
return `false` and change nothing, else build the diff commit and the new
state and `add_pair` them.  The commit metadata (built internally by
`MakeCommitMeta` in the Rust code) is passed as an oracle argument. -/
def pushState (p : Part) (ms : MutPartState) (meta : Meta) :
    Part × Except PatchOp Bool :=
  match lookupState hash p ms.parent with
  | none => (p, .error .noParent)
  | some par =>
      if xorS (stateSum hash par) (metaSum hash par.meta) =
          eltXorOf hash ms.elts then
        (p, .ok false)
      else
        let st : PartState := ⟨[ms.parent], ms.elts, meta⟩
        let c : Commit := ⟨stateSum hash st, [ms.parent],
          diffChanges par.elts ms.elts, meta⟩
        (addPair hash p c st, .ok true)

/-- `unload(force)`: clear `states` and `tips` and return true when forced
or nothing is unsaved; otherwise do nothing and return false.  The
`unsaved` queue is never touched. -/
def unload (p : Part) (force : Bool) : Part × Bool :=
  if force || p.unsaved.isEmpty then
    ({ p with states := [], tips := ∅ }, true)
  else (p, false)

end Partition

/-! ## Snapshot policy (`SnapshotPolicy` in `part.rs`, `DefaultSnapshot`
in `control.rs`) -/

/-- The snapshot policy counters of `part.rs`. -/
structure SnapshotPolicy where
  commits : Nat
  edits : Nat
  deriving DecidableEq, Repr

/-- `SnapshotPolicy::new` / `reset`: fresh counters. -/
def SnapshotPolicy.reset : SnapshotPolicy := ⟨0, 0⟩

/-- `require`: force a snapshot by setting `commits = 1000`. -/
def SnapshotPolicy.require (sp : SnapshotPolicy) : SnapshotPolicy :=
  { sp with commits := 1000 }

/-- `add_commits`. -/
def SnapshotPolicy.addCommits (sp : SnapshotPolicy) (n : Nat) : SnapshotPolicy :=
  { sp with commits := sp.commits + n }

/-- `add_edits`. -/
def SnapshotPolicy.addEdits (sp : SnapshotPolicy) (n : Nat) : SnapshotPolicy :=
  { sp with edits := sp.edits + n }

/-- `snapshot()`: `commits * 5 + edits > 150`. -/
def SnapshotPolicy.snapshot (sp : SnapshotPolicy) : Bool :=
  150 < sp.commits * 5 + sp.edits

/-- Counter-accumulating events between resets. -/
inductive PolOp where
  | addC (n : Nat)
  | addE (n : Nat)
  deriving DecidableEq, Repr

def polStep (sp : SnapshotPolicy) : PolOp → SnapshotPolicy
  | .addC n => sp.addCommits n
  | .addE n => sp.addEdits n

def polRun (sp : SnapshotPolicy) (ops : List PolOp) : SnapshotPolicy :=
  ops.foldl polStep sp

/-- Total commits reported by a sequence of events. -/
def opsC (ops : List PolOp) : Nat :=
  (ops.map (fun o => match o with | .addC n => n | .addE _ => 0)).sum

/-- Total edits reported by a sequence of events. -/
def opsE (ops : List PolOp) : Nat :=
  (ops.map (fun o => match o with | .addC _ => 0 | .addE n => n)).sum

theorem polRun_counts (ops : List PolOp) : ∀ sp : SnapshotPolicy,
    polRun sp ops = ⟨sp.commits + opsC ops, sp.edits + opsE ops⟩ := by
  induction ops with
  | nil => intro sp; simp [polRun, opsC, opsE]
  | cons o ops ih =>
      intro sp
      cases o with
      | addC n =>
          rw [polRun, List.foldl_cons]
          rw [show polStep sp (PolOp.addC n) = sp.addCommits n from rfl]
          rw [show List.foldl polStep (sp.addCommits n) ops = polRun (sp.addCommits n) ops from rfl, ih]
          simp [SnapshotPolicy.addCommits, opsC, opsE]
          omega
      | addE n =>
          rw [polRun, List.foldl_cons]
          rw [show polStep sp (PolOp.addE n) = sp.addEdits n from rfl]
          rw [show List.foldl polStep (sp.addEdits n) ops = polRun (sp.addEdits n) ops from rfl, ih]
          simp [SnapshotPolicy.addEdits, opsC, opsE]
          omega

/-- The `DefaultSnapshot` policy of `control.rs` (single counter). -/
structure DefaultSnapshot where
  counter : Nat
  deriving DecidableEq, Repr

/-- `Default::default()` / `reset`. -/
def DefaultSnapshot.reset : DefaultSnapshot := ⟨0⟩

/-- `force_snapshot`: sets the counter to 1000. -/
def DefaultSnapshot.forceSnapshot (_ : DefaultSnapshot) : DefaultSnapshot :=
  ⟨1000⟩

/-- `count(commits, edits)`: `counter += commits * 5 + edits`. -/
def DefaultSnapshot.count (ds : DefaultSnapshot) (commits edits : Nat) :
    DefaultSnapshot := ⟨ds.counter + (commits * 5 + edits)⟩

/-- `want_snapshot()`: `counter > 150`. -/
def DefaultSnapshot.wantSnapshot (ds : DefaultSnapshot) : Bool :=
  150 < ds.counter

def dsRun (ds : DefaultSnapshot) (ops : List (Nat × Nat)) : DefaultSnapshot :=
  ops.foldl (fun d o => d.count o.1 o.2) ds

theorem dsRun_counts (ops : List (Nat × Nat)) : ∀ ds : DefaultSnapshot,
    dsRun ds ops = ⟨ds.counter + (ops.map (fun o => o.1 * 5 + o.2)).sum⟩ := by
  induction ops with
  | nil => intro ds; simp [dsRun]
  | cons o ops ih =>
      intro ds
      rw [dsRun, List.foldl_cons]
      rw [show List.foldl (fun d o => DefaultSnapshot.count d o.1 o.2)
        (ds.count o.1 o.2) ops = dsRun (ds.count o.1 o.2) ops from rfl, ih]
      simp [DefaultSnapshot.count]
      omega

/-- C7: with `c` commits and `e` edits recorded since the last reset,
`want_snapshot()` holds iff `c * 5 + e > 150`; after `require` (in
`part.rs`) or `force_snapshot` (in `control.rs`) it stays true through any
further recorded events, i.e. until the next reset; and a fresh reset
state does not want a snapshot. -/
theorem C7_snapshot_policy :
    (∀ ops : List PolOp,
      (polRun SnapshotPolicy.reset ops).snapshot =
        decide (150 < opsC ops * 5 + opsE ops)) ∧
    (∀ (sp : SnapshotPolicy) (ops : List PolOp),
      (polRun sp.require ops).snapshot = true) ∧
    SnapshotPolicy.reset.snapshot = false ∧
    (∀ ops : List (Nat × Nat),
      (dsRun DefaultSnapshot.reset ops).wantSnapshot =
        decide (150 < ((ops.map Prod.fst).sum * 5 + (ops.map Prod.snd).sum))) ∧
    (∀ (ds : DefaultSnapshot) (ops : List (Nat × Nat)),
      (dsRun ds.forceSnapshot ops).wantSnapshot = true) ∧
    DefaultSnapshot.reset.wantSnapshot = false := by
  refine ⟨?_, ?_, by decide, ?_, ?_, by decide⟩
  · intro ops
    rw [polRun_counts ops SnapshotPolicy.reset]
    simp [SnapshotPolicy.snapshot, SnapshotPolicy.reset]
  · intro sp ops
    rw [polRun_counts ops sp.require]
    simp [SnapshotPolicy.snapshot, SnapshotPolicy.require]
    omega
  · intro ops
    rw [dsRun_counts ops DefaultSnapshot.reset]
    have hsum : ∀ l : List (Nat × Nat),
        (l.map (fun o => o.1 * 5 + o.2)).sum =
          (l.map Prod.fst).sum * 5 + (l.map Prod.snd).sum := by
      intro l
      induction l with
      | nil => simp
      | cons o l ih => simp [ih]; ring
    simp [DefaultSnapshot.wantSnapshot, DefaultSnapshot.reset, hsum]
  · intro ds ops
    rw [dsRun_counts ops ds.forceSnapshot]
    simp [DefaultSnapshot.wantSnapshot, DefaultSnapshot.forceSnapshot]
    omega

/-! ## `write`: flushing the unsaved commit queue (C6) -/

/-- The commit-flush loop of `write`: write the front commit, then pop it;
an I/O failure (modelled by the budget `ok` of successful
`write_commit` calls) aborts with the current queue intact. -/
def flushLoop (hash : List Nat → List Nat) :
    Nat → List Commit → List Commit × List (List Nat) × Bool
  | _, [] => ([], [], true)
  | 0, c :: cs => (c :: cs, [], false)
  | k + 1, c :: cs =>
      let (r, w, b) := flushLoop hash k cs
      (r, writeCommit hash c :: w, b)

theorem flushLoop_eq (hash : List Nat → List Nat) (q : List Commit) :
    ∀ k, flushLoop hash k q =
      (q.drop k, (q.take k).map (writeCommit hash), decide (q.length ≤ k)) := by
  induction q with
  | nil => intro k; cases k <;> simp [flushLoop]
  | cons c cs ih =>
      intro k
      cases k with
      | zero => simp [flushLoop]
      | succ k => simp [flushLoop, ih k]

/-- The first step of `write(fast, ...)`: if nothing is unsaved, nothing
is written; otherwise commits are flushed from the front of `unsaved`,
each being popped only after its `write_commit` succeeded.  Returns the
partition, the successfully written commit serialisations in order, the
has-changes flag (`write`'s `Ok` value) and whether the flush completed
(`false` models `write` returning an I/O error mid-flush). -/
def partWrite (hash : List Nat → List Nat) (p : Part) (okCount : Nat) :
    Part × List (List Nat) × Bool × Bool :=
  if p.unsaved.isEmpty then (p, [], false, true)
  else
    let (r, w, b) := flushLoop hash okCount p.unsaved
    ({ p with unsaved := r }, w, true, b)

/-- C6: `write` flushes commits in FIFO insertion order (the bytes written
are exactly the serialisations of the first `k` queued commits, in queue
order), and when the `k`-th `write_commit` fails the queue keeps every
unwritten commit in its original order with the failed commit at the
head, so a retry flushes exactly the remainder. -/
theorem C6_write_fifo_retry (hash : List Nat → List Nat) (p : Part)
    (k : Nat) (hk : k < p.unsaved.length) :
    partWrite hash p k =
      ({ p with unsaved := p.unsaved.drop k },
        (p.unsaved.take k).map (writeCommit hash), true, false) ∧
    (p.unsaved.drop k).head? = p.unsaved[k]? ∧
    (∀ k₂, p.unsaved.length - k ≤ k₂ →
      partWrite hash { p with unsaved := p.unsaved.drop k } k₂ =
        ({ p with unsaved := [] },
          (p.unsaved.drop k).map (writeCommit hash), true, true)) := by
  have hne : p.unsaved.isEmpty = false := by
    cases hq : p.unsaved with
    | nil => rw [hq] at hk; simp at hk
    | cons c cs => simp
  refine ⟨?_, ?_, ?_⟩
  · rw [partWrite, hne]
    simp [flushLoop_eq, Nat.not_le_of_lt hk]
  · cases hq : p.unsaved with
    | nil => rw [hq] at hk; simp at hk
    | cons c cs => simp [List.head?_drop]
  · intro k₂ hk₂
    have hne2 : (p.unsaved.drop k).isEmpty = false := by
      have : k < p.unsaved.length := hk
      simp [List.isEmpty_iff, List.drop_eq_nil_iff]
      omega
    rw [partWrite]
    simp only [hne2, Bool.false_eq_true, if_false]
    have hlen2 : (p.unsaved.drop k).length ≤ k₂ := by
      simp [List.length_drop]
      omega
    simp [flushLoop_eq, hlen2, List.drop_drop, List.drop_eq_nil_iff]
    omega

/-! ## C4, C5, C10 -/

theorem eltXorOf_length (hash : List Nat → List Nat)
    (hlen : ∀ l, (hash l).length = 32) (elts : List (Nat × List Nat)) :
    (eltXorOf hash elts).length = 32 := by
  suffices h : ∀ (a : Sum), a.length = 32 →
      (elts.foldl (fun a e => xorS a (eltSum hash e.1 e.2)) a).length = 32 by
    exact h zero32 (by simp [zero32])
  induction elts with
  | nil => intro a ha; simpa
  | cons e elts ih =>
      intro a ha
      rw [List.foldl_cons]
      exact ih _ (by simp [ha, eltSum, hlen])

/-- C4: if the mutated state's element sum equals its parent state's
element sum, `push_state` returns `Ok(false)`, produces no commit and
leaves the partition (states, tips, unsaved queue) unchanged. -/
theorem C4_push_state_noop (hash : List Nat → List Nat)
    (hlen : ∀ l, (hash l).length = 32) (p : Part) (ms : MutPartState)
    (meta : Meta) (par : PartState)
    (hpar : lookupState hash p ms.parent = some par)
    (heq : eltXorOf hash ms.elts = eltXorOf hash par.elts) :
    pushState hash p ms meta = (p, .ok false) := by
  have hcond : xorS (stateSum hash par) (metaSum hash par.meta) =
      eltXorOf hash ms.elts := by
    rw [stateSum, xorS_cancel, heq]
    rw [eltXorOf_length hash hlen, metaSum, hlen]
  rw [pushState, hpar]
  simp [hcond]

/-- Witness for C4: a partition with a single state and an unchanged
mutable clone of it. -/
theorem C4_push_state_noop_witness :
    pushState testHash
        ⟨[⟨[], [(1, [7])], ⟨0, 0, .none⟩⟩], {stateSum testHash ⟨[], [(1, [7])], ⟨0, 0, .none⟩⟩}, [], 0, 0⟩
        ⟨stateSum testHash ⟨[], [(1, [7])], ⟨0, 0, .none⟩⟩, [(1, [7])]⟩
        ⟨1, 5, .none⟩ =
      (⟨[⟨[], [(1, [7])], ⟨0, 0, .none⟩⟩], {stateSum testHash ⟨[], [(1, [7])], ⟨0, 0, .none⟩⟩}, [], 0, 0⟩,
        .ok false) :=
  C4_push_state_noop testHash (fun l => by simp [testHash]) _ _ _
    ⟨[], [(1, [7])], ⟨0, 0, .none⟩⟩ (by decide) (by decide)

/-- C5: `push_commit` checks, in order: `SumClash` when the commit's
statesum is already known (nothing changes); `NoParent` when the first
parent is unknown (nothing changes); only otherwise is the commit applied
to the first parent, and on a successful apply the pair is added
(`add_pair`); an apply failure also changes nothing. -/
theorem C5_push_commit_errors (hash : List Nat → List Nat) (p : Part)
    (c : Commit) (fp : Sum) (hfp : c.parents.head? = some fp) :
    (containsSum hash p c.statesum = true →
      pushCommit hash p c = (p, .error .sumClash)) ∧
    (containsSum hash p c.statesum = false →
      lookupState hash p fp = none →
      pushCommit hash p c = (p, .error .noParent)) ∧
    (∀ par, containsSum hash p c.statesum = false →
      lookupState hash p fp = some par →
      Commit.apply hash c par = none →
      pushCommit hash p c = (p, .error .patchApply)) ∧
    (∀ par st, containsSum hash p c.statesum = false →
      lookupState hash p fp = some par →
      Commit.apply hash c par = some st →
      pushCommit hash p c = (addPair hash p c st, .ok ())) := by
  refine ⟨?_, ?_, ?_, ?_⟩
  · intro hcs
    rw [pushCommit, if_pos hcs]
  · intro hcs hlk
    rw [pushCommit, if_neg (by rw [hcs]; simp), hfp]
    simp [hlk]
  · intro par hcs hlk happ
    rw [pushCommit, if_neg (by rw [hcs]; simp), hfp]
    simp [hlk, happ]
  · intro par st hcs hlk happ
    rw [pushCommit, if_neg (by rw [hcs]; simp), hfp]
    simp [hlk, happ]

/-- C10: `unload(force)` empties `states` and `tips` and returns true iff
`force` or no unsaved commits exist; otherwise it returns false leaving
the partition untouched; the `unsaved` queue survives in every case. -/
theorem C10_unload (p : Part) (force : Bool) :
    ((unload p force).2 = true ↔ (force = true ∨ p.unsaved = [])) ∧
    (unload p force).1.unsaved = p.unsaved ∧
    ((unload p force).2 = true →
      (unload p force).1.states = [] ∧ (unload p force).1.tips = ∅) ∧
    ((unload p force).2 = false → (unload p force).1 = p) := by
  rw [unload]
  by_cases h : force = true ∨ p.unsaved = []
  · rw [if_pos (by rcases h with h | h <;> simp [h, List.isEmpty_iff])]
    simp [h]
  · rw [if_neg (by push_neg at h; simp [h.1, List.isEmpty_iff, h.2])]
    push_neg at h
    simp [h.1, h.2]

/-- Witness for C10: unloading a partition with one unsaved commit without
force fails and changes nothing. -/
theorem C10_unload_witness :
    ((unload ⟨[], ∅, [wc3], 0, 0⟩ false).2 = true ↔
      (false = true ∨ ([wc3] : List Commit) = [])) ∧
    (unload ⟨[], ∅, [wc3], 0, 0⟩ false).1.unsaved = [wc3] ∧
    ((unload ⟨[], ∅, [wc3], 0, 0⟩ false).2 = true →
      (unload ⟨[], ∅, [wc3], 0, 0⟩ false).1.states = [] ∧
      (unload ⟨[], ∅, [wc3], 0, 0⟩ false).1.tips = ∅) ∧
    ((unload ⟨[], ∅, [wc3], 0, 0⟩ false).2 = false →
      (unload ⟨[], ∅, [wc3], 0, 0⟩ false).1 = ⟨[], ∅, [wc3], 0, 0⟩) :=
  C10_unload ⟨[], ∅, [wc3], 0, 0⟩ false

/-- Witness for C5 at an empty partition and a commit whose first parent
is therefore unknown. -/
theorem C5_push_commit_errors_witness :
    (containsSum testHash ⟨[], ∅, [], 0, 0⟩ wc3.statesum = true →
      pushCommit testHash ⟨[], ∅, [], 0, 0⟩ wc3 =
        (⟨[], ∅, [], 0, 0⟩, .error .sumClash)) ∧
    (containsSum testHash ⟨[], ∅, [], 0, 0⟩ wc3.statesum = false →
      lookupState testHash ⟨[], ∅, [], 0, 0⟩ (List.replicate 32 4) = none →
      pushCommit testHash ⟨[], ∅, [], 0, 0⟩ wc3 =
        (⟨[], ∅, [], 0, 0⟩, .error .noParent)) ∧
    (∀ par, containsSum testHash ⟨[], ∅, [], 0, 0⟩ wc3.statesum = false →
      lookupState testHash ⟨[], ∅, [], 0, 0⟩ (List.replicate 32 4) = some par →
      Commit.apply testHash wc3 par = none →
      pushCommit testHash ⟨[], ∅, [], 0, 0⟩ wc3 =
        (⟨[], ∅, [], 0, 0⟩, .error .patchApply)) ∧
    (∀ par st, containsSum testHash ⟨[], ∅, [], 0, 0⟩ wc3.statesum = false →
      lookupState testHash ⟨[], ∅, [], 0, 0⟩ (List.replicate 32 4) = some par →
      Commit.apply testHash wc3 par = some st →
      pushCommit testHash ⟨[], ∅, [], 0, 0⟩ wc3 =
        (addPair testHash ⟨[], ∅, [], 0, 0⟩ wc3 st, .ok ())) :=
  C5_push_commit_errors testHash ⟨[], ∅, [], 0, 0⟩ wc3 (List.replicate 32 4)
    (by decide)

/-- Witness for C6: a queue of two commits whose first write succeeds and
second fails; retrying with a sufficient budget flushes the rest. -/
theorem C6_write_fifo_retry_witness :
    partWrite testHash ⟨[], ∅, [wc1, wc3], 0, 0⟩ 1 =
      (⟨[], ∅, ([wc1, wc3] : List Commit).drop 1, 0, 0⟩,
        (([wc1, wc3] : List Commit).take 1).map (writeCommit testHash),
        true, false) ∧
    (([wc1, wc3] : List Commit).drop 1).head? = ([wc1, wc3] : List Commit)[1]? ∧
    (∀ k₂, ([wc1, wc3] : List Commit).length - 1 ≤ k₂ →
      partWrite testHash ⟨[], ∅, ([wc1, wc3] : List Commit).drop 1, 0, 0⟩ k₂ =
        (⟨[], ∅, [], 0, 0⟩,
          (([wc1, wc3] : List Commit).drop 1).map (writeCommit testHash),
          true, true)) :=
  C6_write_fifo_retry testHash ⟨[], ∅, [wc1, wc3], 0, 0⟩ 1 (by decide)

/-! ## C3: the tip invariant -/

/-- The statesums of the loaded states. -/
def sums (hash : List Nat → List Nat) (p : Part) : List Sum :=
  p.states.map (stateSum hash)

/-- The claimed tip invariant: `tips` is exactly the set of statesums of
loaded states that no loaded state lists among its parents. -/
def tipInvF (hash : List Nat → List Nat) (p : Part) : Prop :=
  p.tips = (sums hash p).toFinset.filter
    (fun s => ∀ st ∈ p.states, s ∉ st.parents)

instance (hash : List Nat → List Nat) (p : Part) :
    Decidable (tipInvF hash p) := by
  unfold tipInvF; infer_instance

/-- Parent closure: every parent listed by a loaded state is itself a
loaded state (true after `create`, preserved by the operations below). -/
def Closed (hash : List Nat → List Nat) (p : Part) : Prop :=
  ∀ st ∈ p.states, ∀ q ∈ st.parents, q ∈ sums hash p

/-- A modification operation on a loaded partition. -/
inductive POp where
  | pushS (ms : MutPartState) (meta : Meta)
  | pushC (c : Commit)

/-- Run one operation (failed operations leave the partition unchanged,
which `pushState`/`pushCommit` also guarantee). -/
def stepOp (hash : List Nat → List Nat) (p : Part) : POp → Part
  | .pushS ms meta => (pushState hash p ms meta).1
  | .pushC c => (pushCommit hash p c).1

def runOps (hash : List Nat → List Nat) (p : Part) (ops : List POp) : Part :=
  ops.foldl (stepOp hash) p

/-- The freshness conditions under which an operation preserves the tip
invariant: a pushed state's sum must be new (push_state does not check
this), and a pushed commit must list only loaded parents (push_commit
verifies only the first). -/
def GoodStep (hash : List Nat → List Nat) (p : Part) : POp → Prop
  | .pushS ms meta =>
      stateSum hash ⟨[ms.parent], ms.elts, meta⟩ ∉ sums hash p
  | .pushC c => ∀ q ∈ c.parents, q ∈ sums hash p

def GoodSeq (hash : List Nat → List Nat) : Part → List POp → Prop
  | _, [] => True
  | p, op :: ops => GoodStep hash p op ∧ GoodSeq hash (stepOp hash p op) ops

theorem mem_foldl_erase {s : List Nat} (ps : List Sum) :
    ∀ t : Finset (List Nat),
      (s ∈ ps.foldl Finset.erase t) ↔ (s ∈ t ∧ s ∉ ps) := by
  induction ps with
  | nil => intro t; simp
  | cons q ps ih =>
      intro t
      rw [List.foldl_cons, ih (t.erase q), Finset.mem_erase]
      simp only [List.mem_cons]
      constructor
      · rintro ⟨⟨hne, ht⟩, hn⟩
        exact ⟨ht, by rintro (h | h); exact hne h; exact hn h⟩
      · rintro ⟨ht, hn⟩
        exact ⟨⟨fun h => hn (Or.inl h), ht⟩, fun h => hn (Or.inr h)⟩

theorem mem_sums_addPair (hash : List Nat → List Nat) (p : Part)
    (c : Commit) (st : PartState) (s : Sum) :
    s ∈ sums hash (addPair hash p c st) ↔
      s ∈ sums hash p ∨ s = stateSum hash st := by
  simp [sums, addPair, or_comm]

theorem addPair_inv (hash : List Nat → List Nat) (p : Part) (c : Commit)
    (st : PartState) (hclosed : Closed hash p) (hinv : tipInvF hash p)
    (hn : stateSum hash st ∉ sums hash p)
    (hpar : ∀ q ∈ st.parents, q ∈ sums hash p) :
    tipInvF hash (addPair hash p c st) ∧ Closed hash (addPair hash p c st) := by
  have hstates : (addPair hash p c st).states = p.states ++ [st] := rfl
  have htips : (addPair hash p c st).tips =
      insert (stateSum hash st) (st.parents.foldl Finset.erase p.tips) := rfl
  constructor
  · unfold tipInvF
    apply Finset.ext
    intro s
    rw [htips, Finset.mem_insert, mem_foldl_erase, Finset.mem_filter,
      List.mem_toFinset]
    rw [tipInvF] at hinv
    constructor
    · rintro (hs | ⟨htip, hnp⟩)
      · subst hs
        refine ⟨(mem_sums_addPair hash p c st _).2 (Or.inr rfl), ?_⟩
        intro st' hst'
        rw [hstates] at hst'
        rcases List.mem_append.1 hst' with h | h
        · intro hmem
          exact hn (hclosed st' h _ hmem)
        · have : st' = st := by simpa using h
          subst this
          intro hmem
          exact hn (hpar _ hmem)
      · rw [hinv, Finset.mem_filter, List.mem_toFinset] at htip
        obtain ⟨hsum, hnc⟩ := htip
        refine ⟨(mem_sums_addPair hash p c st _).2 (Or.inl hsum), ?_⟩
        intro st' hst'
        rw [hstates] at hst'
        rcases List.mem_append.1 hst' with h | h
        · exact hnc st' h
        · have : st' = st := by simpa using h
          subst this
          exact hnp
    · rintro ⟨hsum, hall⟩
      rcases (mem_sums_addPair hash p c st s).1 hsum with h | h
      · right
        refine ⟨?_, ?_⟩
        · rw [hinv, Finset.mem_filter, List.mem_toFinset]
          refine ⟨h, ?_⟩
          intro st' hst'
          exact hall st' (by rw [hstates]; exact List.mem_append.2 (Or.inl hst'))
        · exact hall st (by rw [hstates]; exact List.mem_append.2 (Or.inr (by simp)))
      · exact Or.inl h
  · intro st' hst' q hq
    rw [hstates] at hst'
    rcases List.mem_append.1 hst' with h | h
    · exact (mem_sums_addPair hash p c st q).2 (Or.inl (hclosed st' h q hq))
    · have hst : st' = st := by simpa using h
      rw [hst] at hq
      exact (mem_sums_addPair hash p c st q).2 (Or.inl (hpar q hq))

/-! Result equations for `push_commit` and `push_state`, one per control
path of the Rust code. -/

theorem pushCommit_clash (hash : List Nat → List Nat) (p : Part) (c : Commit)
    (hcs : containsSum hash p c.statesum = true) :
    pushCommit hash p c = (p, .error .sumClash) := by
  rw [pushCommit, if_pos hcs]

theorem pushCommit_noFirst (hash : List Nat → List Nat) (p : Part) (c : Commit)
    (hcs : containsSum hash p c.statesum = false)
    (hh : c.parents.head? = none) :
    pushCommit hash p c = (p, .error .noParent) := by
  rw [pushCommit, if_neg (by rw [hcs]; simp), hh]

theorem pushCommit_noParent (hash : List Nat → List Nat) (p : Part)
    (c : Commit) (fp : Sum) (hcs : containsSum hash p c.statesum = false)
    (hh : c.parents.head? = some fp) (hlk : lookupState hash p fp = none) :
    pushCommit hash p c = (p, .error .noParent) := by
  rw [pushCommit, if_neg (by rw [hcs]; simp), hh]
  simp [hlk]

theorem pushCommit_applyFail (hash : List Nat → List Nat) (p : Part)
    (c : Commit) (fp : Sum) (par : PartState)
    (hcs : containsSum hash p c.statesum = false)
    (hh : c.parents.head? = some fp) (hlk : lookupState hash p fp = some par)
    (happ : Commit.apply hash c par = none) :
    pushCommit hash p c = (p, .error .patchApply) := by
  rw [pushCommit, if_neg (by rw [hcs]; simp), hh]
  simp [hlk, happ]

theorem pushCommit_ok (hash : List Nat → List Nat) (p : Part)
    (c : Commit) (fp : Sum) (par st : PartState)
    (hcs : containsSum hash p c.statesum = false)
    (hh : c.parents.head? = some fp) (hlk : lookupState hash p fp = some par)
    (happ : Commit.apply hash c par = some st) :
    pushCommit hash p c = (addPair hash p c st, .ok ()) := by
  rw [pushCommit, if_neg (by rw [hcs]; simp), hh]
  simp [hlk, happ]

theorem pushState_noParent (hash : List Nat → List Nat) (p : Part)
    (ms : MutPartState) (meta : Meta)
    (hlk : lookupState hash p ms.parent = none) :
    pushState hash p ms meta = (p, .error .noParent) := by
  rw [pushState, hlk]

theorem pushState_noop (hash : List Nat → List Nat) (p : Part)
    (ms : MutPartState) (meta : Meta) (par : PartState)
    (hlk : lookupState hash p ms.parent = some par)
    (hcond : xorS (stateSum hash par) (metaSum hash par.meta) =
      eltXorOf hash ms.elts) :
    pushState hash p ms meta = (p, .ok false) := by
  rw [pushState, hlk]
  simp [hcond]

theorem pushState_push (hash : List Nat → List Nat) (p : Part)
    (ms : MutPartState) (meta : Meta) (par : PartState)
    (hlk : lookupState hash p ms.parent = some par)
    (hcond : ¬(xorS (stateSum hash par) (metaSum hash par.meta) =
      eltXorOf hash ms.elts)) :
    pushState hash p ms meta =
      (addPair hash p
        ⟨stateSum hash ⟨[ms.parent], ms.elts, meta⟩, [ms.parent],
          diffChanges par.elts ms.elts, meta⟩
        ⟨[ms.parent], ms.elts, meta⟩, .ok true) := by
  rw [pushState, hlk]
  simp [hcond]


theorem lookup_some_mem (hash : List Nat → List Nat) (p : Part) (s : Sum)
    (par : PartState) (h : lookupState hash p s = some par) :
    s ∈ sums hash p := by
  unfold lookupState at h
  have hmem := List.mem_of_find?_eq_some h
  have hpred := List.find?_some h
  simp at hpred
  rw [← hpred]
  exact List.mem_map_of_mem _ hmem

theorem apply_facts (hash : List Nat → List Nat) (c : Commit)
    (par st : PartState) (h : Commit.apply hash c par = some st) :
    st.parents = c.parents ∧ stateSum hash st = c.statesum := by
  unfold Commit.apply at h
  cases hac : applyChanges c.changes par.elts with
  | none => rw [hac] at h; simp at h
  | some m =>
      rw [hac] at h
      simp only [Option.bind_some, Option.bind_eq_bind] at h
      by_cases hcd : stateSum hash ⟨c.parents, m, c.meta⟩ = c.statesum
      · simp [hcd] at h
        rw [← h]
        exact ⟨rfl, hcd⟩
      · simp [hcd] at h

theorem not_containsSum (hash : List Nat → List Nat) (p : Part) (s : Sum)
    (h : containsSum hash p s = false) : s ∉ sums hash p := by
  unfold containsSum at h
  intro hmem
  rw [sums, List.mem_map] at hmem
  obtain ⟨st, hst, hsum⟩ := hmem
  rw [List.any_eq_false] at h
  exact absurd (by simpa using hsum) (by simpa using h st hst)

theorem step_inv (hash : List Nat → List Nat) (p : Part) (op : POp)
    (hclosed : Closed hash p) (hinv : tipInvF hash p)
    (hgood : GoodStep hash p op) :
    tipInvF hash (stepOp hash p op) ∧ Closed hash (stepOp hash p op) := by
  cases op with
  | pushC c =>
      rw [stepOp]
      by_cases hcs : containsSum hash p c.statesum
      · rw [pushCommit_clash hash p c hcs]; exact ⟨hinv, hclosed⟩
      · have hcs' : containsSum hash p c.statesum = false := by simpa using hcs
        cases hh : c.parents.head? with
        | none => rw [pushCommit_noFirst hash p c hcs' hh]; exact ⟨hinv, hclosed⟩
        | some fp =>
            cases hlk : lookupState hash p fp with
            | none =>
                rw [pushCommit_noParent hash p c fp hcs' hh hlk]
                exact ⟨hinv, hclosed⟩
            | some par =>
                cases happ : Commit.apply hash c par with
                | none =>
                    rw [pushCommit_applyFail hash p c fp par hcs' hh hlk happ]
                    exact ⟨hinv, hclosed⟩
                | some st =>
                    rw [pushCommit_ok hash p c fp par st hcs' hh hlk happ]
                    obtain ⟨hpst, hsst⟩ := apply_facts hash c par st happ
                    apply addPair_inv hash p c st hclosed hinv
                    · rw [hsst]
                      exact not_containsSum hash p c.statesum hcs'
                    · rw [hpst]
                      exact hgood
  | pushS ms meta =>
      rw [stepOp]
      cases hlk : lookupState hash p ms.parent with
      | none => rw [pushState_noParent hash p ms meta hlk]; exact ⟨hinv, hclosed⟩
      | some par =>
          by_cases hcond : xorS (stateSum hash par) (metaSum hash par.meta) =
              eltXorOf hash ms.elts
          · rw [pushState_noop hash p ms meta par hlk hcond]
            exact ⟨hinv, hclosed⟩
          · rw [pushState_push hash p ms meta par hlk hcond]
            apply addPair_inv hash p _ _ hclosed hinv
            · exact hgood
            · intro q hq
              simp only [List.mem_singleton] at hq
              subst hq
              exact lookup_some_mem hash p _ par hlk

/-- C3 amended: starting from a partition whose tips satisfy the claimed
invariant and whose states' parents are all loaded (as after `create`),
any sequence of successful `push_state`/`push_commit` operations preserves
`tips = {s ∈ states : no c ∈ states has s ∈ c.parents}` — provided each
pushed state's sum is fresh and each pushed commit lists only loaded
parents.  `push_commit` itself checks only the *first* parent, and the
counterexample below shows the invariant genuinely breaks without the
extra condition. -/
theorem C3_tip_invariant (hash : List Nat → List Nat) (p : Part)
    (ops : List POp) (hclosed : Closed hash p) (hinv : tipInvF hash p)
    (hseq : GoodSeq hash p ops) :
    tipInvF hash (runOps hash p ops) := by
  suffices h : ∀ (ops : List POp) (p : Part), Closed hash p → tipInvF hash p →
      GoodSeq hash p ops →
      tipInvF hash (runOps hash p ops) ∧ Closed hash (runOps hash p ops) by
    exact (h ops p hclosed hinv hseq).1
  intro ops
  induction ops with
  | nil => intro p hc hi _; exact ⟨hi, hc⟩
  | cons op ops ih =>
      intro p hc hi hs
      obtain ⟨hg, hs'⟩ := hs
      obtain ⟨hi', hc'⟩ := step_inv hash p op hc hi hg
      exact ih (stepOp hash p op) hc' hi' hs'

/-! Concrete partition runs for the C3 witness and counterexample. -/

def c3meta0 : Meta := ⟨0, 0, .none⟩
def c3meta1 : Meta := ⟨1, 0, .none⟩
def c3meta2 : Meta := ⟨2, 0, .none⟩

/-- The blank root state of a freshly created partition. -/
def c3root : PartState := ⟨[], [], c3meta0⟩

/-- A loaded partition holding only the root state, its sole tip. -/
def c3p0 : Part := ⟨[c3root], {stateSum testHash c3root}, [], 0, 0⟩

/-- Statesum of the state obtained from the root by inserting element 1. -/
def c3s1sum : Sum := stateSum testHash ⟨[], [(1, [])], c3meta1⟩

/-- Statesum of the state obtained from that one by inserting element 2
(the statesum does not depend on the parent list). -/
def c3q : Sum := stateSum testHash ⟨[], [(1, []), (2, [0])], c3meta2⟩

/-- A merge commit whose second parent `c3q` is not a loaded state:
`push_commit` checks only the first parent. -/
def c3c1 : Commit :=
  ⟨c3s1sum, [stateSum testHash c3root, c3q], [(1, .ins [])], c3meta1⟩

/-- A commit built on the previous state whose resulting statesum is
exactly the dangling parent `c3q`. -/
def c3c2 : Commit := ⟨c3q, [c3s1sum], [(2, .ins [0])], c3meta2⟩

/-- An ordinary single-parent commit on the root, used by the witness. -/
def c3w : Commit := ⟨c3s1sum, [stateSum testHash c3root], [(1, .ins [])], c3meta1⟩

/-- C3 counterexample: starting from a partition satisfying the claimed
tip invariant, two successful `push_commit` operations (a merge commit
naming an absent second parent, then a commit whose statesum equals that
absent parent) leave `tips` different from
`{s ∈ states : no c ∈ states has s ∈ c.parents}`. -/
theorem C3_counterexample :
    tipInvF testHash c3p0 ∧
    (pushCommit testHash c3p0 c3c1).2 = .ok () ∧
    (pushCommit testHash (pushCommit testHash c3p0 c3c1).1 c3c2).2 = .ok () ∧
    ¬ tipInvF testHash
        (pushCommit testHash (pushCommit testHash c3p0 c3c1).1 c3c2).1 :=
  ⟨by decide, by decide, by decide, by decide⟩

/-- Witness for the amended C3: one ordinary push on a created partition
preserves the invariant. -/
theorem C3_tip_invariant_witness :
    Closed testHash c3p0 ∧ tipInvF testHash c3p0 ∧
    GoodSeq testHash c3p0 [POp.pushC c3w] ∧
    tipInvF testHash (runOps testHash c3p0 [POp.pushC c3w]) :=
  have hc : Closed testHash c3p0 := by
    intro st hst q hq
    simp [c3p0, c3root] at hst
    rw [hst] at hq
    simp [c3root] at hq
  have hg : GoodSeq testHash c3p0 [POp.pushC c3w] :=
    ⟨show ∀ q ∈ c3w.parents, q ∈ sums testHash c3p0 from by decide, trivial⟩
  ⟨hc, by decide, hg,
    C3_tip_invariant testHash c3p0 [POp.pushC c3w] hc (by decide) hg⟩

/-! ## `latest_common_ancestor` (C8) -/

/-- The parent sums of the loaded state with statesum `k`
(`self.states.get(k)`; unknown sums have no parents to follow). -/
def parentsOf (hash : List Nat → List Nat) (p : Part) (k : Sum) : List Sum :=
  match lookupState hash p k with
  | none => []
  | some st => st.parents

/-- A fuel bound large enough for the traversals of
`latest_common_ancestor` (each sum is expanded at most once, pushing its
parents). -/
def lcaFuel (p : Part) : Nat :=
  2 + (p.states.map (fun st => st.parents.length)).sum + p.states.length

/-- First loop of `latest_common_ancestor`: collect every sum reachable
from the start by parent edges into `a` (the `VecDeque` is used
back-to-back, i.e. as a stack; the model keeps the most recently pushed
sum at the head). -/
def ancestors (hash : List Nat → List Nat) (p : Part) :
    Nat → Finset (List Nat) → List Sum → Finset (List Nat)
  | 0, a, _ => a
  | _ + 1, a, [] => a
  | f + 1, a, k :: stack =>
      if k ∈ a then ancestors hash p f a stack
      else ancestors hash p f (insert k a) ((parentsOf hash p k).reverse ++ stack)

/-- Second loop: traverse the ancestors of `k2` and return the first sum
already in `a1`; an exhausted queue is the "unable to find a common
ancestor" error. -/
def lcaLoop (hash : List Nat → List Nat) (p : Part) (a1 : Finset (List Nat)) :
    Nat → Finset (List Nat) → List Sum → Except Unit Sum
  | 0, _, _ => .error ()
  | _ + 1, _, [] => .error ()
  | f + 1, a2, k :: stack =>
      if k ∈ a2 then lcaLoop hash p a1 f a2 stack
      else if k ∈ a1 then .ok k
      else lcaLoop hash p a1 f (insert k a2) ((parentsOf hash p k).reverse ++ stack)

/-- `latest_common_ancestor(k1, k2)`. -/
def latest_common_ancestor (hash : List Nat → List Nat) (p : Part)
    (k1 k2 : Sum) : Except Unit Sum :=
  lcaLoop hash p (ancestors hash p (lcaFuel p) ∅ [k1]) (lcaFuel p) ∅ [k2]

/-- `s` is an ancestor of `root` in the loaded state DAG: reachable from
`root` by following parent sums (a sum is its own ancestor, as in the
traversals of the code). -/
inductive Reach (hash : List Nat → List Nat) (p : Part) (root : Sum) :
    Sum → Prop where
  | refl : Reach hash p root root
  | step {m q : Sum} : Reach hash p root m → q ∈ parentsOf hash p m →
      Reach hash p root q

theorem ancestors_sound (hash : List Nat → List Nat) (p : Part) (k1 : Sum) :
    ∀ (f : Nat) (a : Finset (List Nat)) (stack : List Sum),
      (∀ x ∈ a, Reach hash p k1 x) → (∀ x ∈ stack, Reach hash p k1 x) →
      ∀ s ∈ ancestors hash p f a stack, Reach hash p k1 s := by
  intro f
  induction f with
  | zero => intro a stack ha _ s hs; exact ha s hs
  | succ f ih =>
      intro a stack ha hstack s hs
      cases stack with
      | nil => exact ha s hs
      | cons k st =>
          rw [ancestors] at hs
          by_cases hk : k ∈ a
          · rw [if_pos hk] at hs
            exact ih a st ha (fun x hx => hstack x (by simp [hx])) s hs
          · rw [if_neg hk] at hs
            have hkr : Reach hash p k1 k := hstack k (by simp)
            refine ih (insert k a) ((parentsOf hash p k).reverse ++ st) ?_ ?_ s hs
            · intro x hx
              rcases Finset.mem_insert.1 hx with h | h
              · rw [h]; exact hkr
              · exact ha x h
            · intro x hx
              rcases List.mem_append.1 hx with h | h
              · exact Reach.step hkr (List.mem_reverse.1 h)
              · exact hstack x (by simp [h])

theorem lcaLoop_sound (hash : List Nat → List Nat) (p : Part)
    (a1 : Finset (List Nat)) (k2 : Sum) :
    ∀ (f : Nat) (a2 : Finset (List Nat)) (stack : List Sum) (s : Sum),
      (∀ x ∈ stack, Reach hash p k2 x) →
      lcaLoop hash p a1 f a2 stack = .ok s →
      s ∈ a1 ∧ Reach hash p k2 s := by
  intro f
  induction f with
  | zero => intro a2 stack s _ h; exact absurd h (by simp [lcaLoop])
  | succ f ih =>
      intro a2 stack s hstack h
      cases stack with
      | nil => exact absurd h (by simp [lcaLoop])
      | cons k st =>
          rw [lcaLoop] at h
          by_cases hk : k ∈ a2
          · rw [if_pos hk] at h
            exact ih a2 st s (fun x hx => hstack x (by simp [hx])) h
          · rw [if_neg hk] at h
            have hkr : Reach hash p k2 k := hstack k (by simp)
            by_cases hk1 : k ∈ a1
            · rw [if_pos hk1] at h
              injection h with h'
              rw [← h']
              exact ⟨hk1, hkr⟩
            · rw [if_neg hk1] at h
              refine ih (insert k a2) ((parentsOf hash p k).reverse ++ st) s ?_ h
              intro x hx
              rcases List.mem_append.1 hx with hm | hm
              · exact Reach.step hkr (List.mem_reverse.1 hm)
              · exact hstack x (by simp [hm])

/-- C8 amended: whenever `latest_common_ancestor(k1, k2)` returns `Ok(s)`,
`s` is a common ancestor of `k1` and `k2` within the loaded states, and if
the two ancestor sets are disjoint it fails.  The result is the *first*
common sum met by the depth-first traversal from `k2`, which need not be
"latest": it may have a descendant that is also a common ancestor (see the
counterexample). -/
theorem C8_lca_sound (hash : List Nat → List Nat) (p : Part) (k1 k2 : Sum) :
    (∀ s, latest_common_ancestor hash p k1 k2 = .ok s →
      Reach hash p k1 s ∧ Reach hash p k2 s) ∧
    ((∀ x, Reach hash p k1 x → Reach hash p k2 x → False) →
      latest_common_ancestor hash p k1 k2 = .error ()) := by
  have hsound : ∀ s, latest_common_ancestor hash p k1 k2 = .ok s →
      Reach hash p k1 s ∧ Reach hash p k2 s := by
    intro s h
    rw [latest_common_ancestor] at h
    obtain ⟨hmem, hr2⟩ := lcaLoop_sound hash p _ k2 (lcaFuel p) ∅ [k2] s
      (by intro x hx; simp at hx; rw [hx]; exact Reach.refl) h
    refine ⟨?_, hr2⟩
    exact ancestors_sound hash p k1 (lcaFuel p) ∅ [k1] (by simp)
      (by intro x hx; simp at hx; rw [hx]; exact Reach.refl) s hmem
  refine ⟨hsound, ?_⟩
  intro hdisj
  cases hres : latest_common_ancestor hash p k1 k2 with
  | ok s =>
      obtain ⟨h1, h2⟩ := hsound s hres
      exact absurd (hdisj s h1 h2) (by simp)
  | error e => cases e; rfl

/-! The counterexample graph: `C` is the root; `D` and `P2` fork from it;
`k1` is a child of `D`, `k2` a merge of `D` and `P2`.  The traversal from
`k2` pops `P2` before `D` and reaches `C` first, although the direct
parent `D` is also a common ancestor and a strict descendant of `C`. -/

def c8meta : Meta := ⟨0, 0, .none⟩
def c8stC : PartState := ⟨[], [], c8meta⟩
def c8C : Sum := stateSum testHash c8stC
def c8stD : PartState := ⟨[c8C], [(1, [])], c8meta⟩
def c8D : Sum := stateSum testHash c8stD
def c8stP2 : PartState := ⟨[c8C], [(1, [0])], c8meta⟩
def c8P2 : Sum := stateSum testHash c8stP2
def c8stK1 : PartState := ⟨[c8D], [(1, [0, 0])], c8meta⟩
def c8k1 : Sum := stateSum testHash c8stK1
def c8stK2 : PartState := ⟨[c8D, c8P2], [(1, [0, 0, 0])], c8meta⟩
def c8k2 : Sum := stateSum testHash c8stK2
def c8p : Part := ⟨[c8stC, c8stD, c8stP2, c8stK1, c8stK2], ∅, [], 0, 0⟩

/-- C8 counterexample: on this loaded DAG `latest_common_ancestor`
returns the root `C`, yet `D` is a strict descendant of `C` (C is an
ancestor of D) and also an ancestor of both `k1` and `k2` — so the
returned sum does have a descendant that is a common ancestor. -/
theorem C8_counterexample :
    latest_common_ancestor testHash c8p c8k1 c8k2 = .ok c8C ∧
    c8D ≠ c8C ∧
    Reach testHash c8p c8D c8C ∧
    Reach testHash c8p c8k1 c8D ∧
    Reach testHash c8p c8k2 c8D :=
  ⟨by decide, by decide,
    Reach.step Reach.refl (by decide),
    Reach.step Reach.refl (by decide),
    Reach.step Reach.refl (by decide)⟩

/-- Witness for the amended C8 on the concrete DAG. -/
theorem C8_lca_sound_witness :
    Reach testHash c8p c8k1 c8C ∧ Reach testHash c8p c8k2 c8C :=
  (C8_lca_sound testHash c8p c8k1 c8k2).1 c8C (by decide)

/-! ## Snapshot codec (`src/readwrite/snapshot.rs`, C2)

This file of the repository predates the commit-log module: elements are
`Element { data, sum }` keyed by a `u64` ident, and the per-element
checksum is `Sum::calculate(&data)` — a hash of the payload only, *not*
of `(EltId ‖ payload)`. -/

/-- The snapshot module's `Element`: payload bytes and checksum. -/
structure Elt where
  data : List Nat
  sum : Sum
  deriving DecidableEq, Repr

/-- The element-reading loop of `read_snapshot`: `n` records, each
`ELEMENT\0` + ident + `BYTES\0\0\0` + length + payload + padding +
stored checksum (compared against `Sum::calculate(&data)`), XORing the
checksums into the running state-sum. -/
def parseSnapElts (hash : List Nat → List Nat) :
    Nat → RS → List (Nat × Elt) → Sum →
    Except RErr (List (Nat × Elt) × Sum × RS)
  | 0, s, acc, sum => .ok (acc, sum, s)
  | n + 1, s, acc, sum => do
      let (b, s) ← rdN 32 s
      if sl b 0 8 = bELEMENT0 then
        if sl b 16 24 = bBYTES then do
          let id := fromBE (sl b 8 16)
          let len := fromBE (sl b 24 32)
          let (d, s) ← rdN len s
          let (_, s) ← rdN (padLen len) s
          let (sb, s) ← rdN 32 s
          if hash d = sb then
            parseSnapElts hash n s (acc ++ [(id, ⟨d, hash d⟩)])
              (xorS sum (hash d))
          else .error .sumBad
        else .error .bad
      else .error .bad

/-- `read_snapshot`: header (`SNAPSHOT` + 8-byte date + `ELEMENTS` +
count), the element records, the `STATESUM` record (repeating the count
and storing the XOR state-sum), and the trailing whole-stream checksum
read outside the hashing wrapper. -/
def readSnapshot (hash : List Nat → List Nat) (bytes : List Nat) :
    Except RErr (List (Nat × Elt)) := do
  let s : RS := ⟨bytes, []⟩
  let (b, s) ← rdN 32 s
  if sl b 0 8 = bSNAPSHOT then
    if sl b 16 24 = bELEMENTS then do
      let n := fromBE (sl b 24 32)
      let (elts, ssum, s) ← parseSnapElts hash n s [] zero32
      let (b2, s) ← rdN 16 s
      if sl b2 0 8 = bSTATESUM then
        if fromBE (sl b2 8 16) = n then do
          let (b3, s) ← rdN 32 s
          if ssum = b3 then
            if 32 ≤ s.rem.length then
              if sl s.rem 0 32 = hash s.acc then .ok elts
              else .error .sumBad
            else .error .eof
          else .error .sumBad
        else .error .bad
      else .error .bad
    else .error .bad
  else .error .bad

/-- The byte layout of one element record, as accepted by the reader: the
stored checksum is forced to be `hash data` (payload only). -/
def snapEltRecord (hash : List Nat → List Nat)
    (it : Nat × List Nat × List Nat) : List Nat :=
  bELEMENT0 ++ (toBE 8 it.1 ++ (bBYTES ++ (toBE 8 it.2.1.length ++
    (it.2.1 ++ (it.2.2 ++ hash it.2.1)))))

/-- XOR of the payload checksums, as accumulated by the reader. -/
def xorAll (hash : List Nat → List Nat) (ds : List (List Nat)) : Sum :=
  ds.foldl (fun a d => xorS a (hash d)) zero32

/-- The checksummed part of a snapshot stream whose reads all succeed:
the stored state-sum is forced to equal the XOR of the element
checksums. -/
def snapBody (hash : List Nat → List Nat) (date : List Nat)
    (items : List (Nat × List Nat × List Nat)) : List Nat :=
  bSNAPSHOT ++ (date ++ (bELEMENTS ++ (toBE 8 items.length ++
    ((items.map (snapEltRecord hash)).flatten ++
      (bSTATESUM ++ (toBE 8 items.length ++
        xorAll hash (items.map (fun it => it.2.1))))))))

theorem sl_sub {l : List Nat} {i j : Nat} : ∀ y ∈ sl l i j, y ∈ l :=
  fun _ hx => List.drop_subset i l (List.take_subset _ _ hx)

theorem decomp32 {b : List Nat} (h : b.length = 32) :
    sl b 0 8 ++ (sl b 8 16 ++ (sl b 16 24 ++ sl b 24 32)) = b := by
  have e4 : sl b 24 32 = b.drop 24 := by
    show (b.drop 24).take (32 - 24) = b.drop 24
    exact List.take_of_length_le (by simp [h])
  have e3 : sl b 16 24 ++ b.drop 24 = b.drop 16 := by
    show (b.drop 16).take (24 - 16) ++ b.drop 24 = b.drop 16
    rw [show b.drop 24 = (b.drop 16).drop 8 by rw [List.drop_drop]]
    exact List.take_append_drop 8 (b.drop 16)
  have e2 : sl b 8 16 ++ b.drop 16 = b.drop 8 := by
    show (b.drop 8).take (16 - 8) ++ b.drop 16 = b.drop 8
    rw [show b.drop 16 = (b.drop 8).drop 8 by rw [List.drop_drop]]
    exact List.take_append_drop 8 (b.drop 8)
  have e1 : sl b 0 8 ++ b.drop 8 = b := by
    show (b.drop 0).take 8 ++ b.drop 8 = b
    rw [List.drop_zero]
    exact List.take_append_drop 8 b
  rw [e4, e3, e2, e1]

theorem decomp16 {b : List Nat} (h : b.length = 16) :
    sl b 0 8 ++ sl b 8 16 = b := by
  have e2 : sl b 8 16 = b.drop 8 := by
    show (b.drop 8).take (16 - 8) = b.drop 8
    exact List.take_of_length_le (by simp [h])
  have e1 : sl b 0 8 ++ b.drop 8 = b := by
    show (b.drop 0).take 8 ++ b.drop 8 = b
    rw [List.drop_zero]
    exact List.take_append_drop 8 b
  rw [e2, e1]

theorem sl_toBE8 {b : List Nat} (hb32 : b.length = 32)
    (hbyte : ∀ x ∈ b, x < 256) (i : Nat) (hi : i ≤ 24) :
    toBE 8 (fromBE (sl b i (i + 8))) = sl b i (i + 8) := by
  have hlen : (sl b i (i + 8)).length = 8 := by
    simp [sl, List.length_take, List.length_drop, hb32]
    omega
  have := toBE_fromBE (l := sl b i (i + 8)) (fun x hx => hbyte x (sl_sub x hx))
  rw [hlen] at this
  exact this

theorem sl16_toBE8 {b : List Nat} (hb16 : b.length = 16)
    (hbyte : ∀ x ∈ b, x < 256) :
    toBE 8 (fromBE (sl b 8 16)) = sl b 8 16 := by
  have hlen : (sl b 8 16).length = 8 := by
    simp [sl, List.length_take, List.length_drop, hb16]
  have := toBE_fromBE (l := sl b 8 16) (fun x hx => hbyte x (sl_sub x hx))
  rw [hlen] at this
  exact this

/-- Inversion of the element-reading loop: a successful parse of `n`
records decomposes the input as `n` well-formed element records (with
correct padding), consuming them into the accumulator, producing exactly
the corresponding elements and XORing their payload checksums. -/
theorem parseSnapElts_inv (hash : List Nat → List Nat) :
    ∀ (n : Nat) (s : RS) (acc0 : List (Nat × Elt)) (sum0 : Sum)
      (elts : List (Nat × Elt)) (ssum : Sum) (s' : RS),
      (∀ b ∈ s.rem, b < 256) →
      parseSnapElts hash n s acc0 sum0 = .ok (elts, ssum, s') →
      ∃ items : List (Nat × List Nat × List Nat),
        items.length = n ∧
        (∀ it ∈ items, it.2.2.length = padLen it.2.1.length) ∧
        s.rem = (items.map (snapEltRecord hash)).flatten ++ s'.rem ∧
        s'.acc = s.acc ++ (items.map (snapEltRecord hash)).flatten ∧
        elts = acc0 ++ items.map (fun it => (it.1, ⟨it.2.1, hash it.2.1⟩)) ∧
        ssum = (items.map (fun it => it.2.1)).foldl
          (fun a d => xorS a (hash d)) sum0 := by
  intro n
  induction n with
  | zero =>
      intro s acc0 sum0 elts ssum s' _ h
      rw [parseSnapElts] at h
      injection h with h'
      obtain ⟨h1, h2, h3⟩ : acc0 = elts ∧ sum0 = ssum ∧ s = s' := by
        refine ⟨congrArg Prod.fst h', ?_, ?_⟩
        · exact congrArg (fun x => x.2.1) h'
        · exact congrArg (fun x => x.2.2) h'
      exact ⟨[], by simp, by simp, by simp [← h3], by simp [← h3],
        by simp [h1], by simp [h2]⟩
  | succ n ih =>
      intro s acc0 sum0 elts ssum s' hbytes h
      rw [parseSnapElts] at h
      cases hb : rdN 32 s with
      | error e => rw [hb] at h; simp [Bind.bind, Except.bind] at h
      | ok v =>
          obtain ⟨b, s1⟩ := v
          rw [hb] at h
          simp only [Bind.bind, Except.bind] at h
          obtain ⟨hrem1, hacc1, hlen1⟩ := rdN_inv hb
          by_cases h08 : sl b 0 8 = bELEMENT0
          · rw [if_pos h08] at h
            by_cases h1624 : sl b 16 24 = bBYTES
            · rw [if_pos h1624] at h
              cases hd : rdN (fromBE (sl b 24 32)) s1 with
              | error e => rw [hd] at h; simp [Bind.bind, Except.bind] at h
              | ok v2 =>
                  obtain ⟨d, s2⟩ := v2
                  rw [hd] at h
                  simp only [Bind.bind, Except.bind] at h
                  obtain ⟨hrem2, hacc2, hlen2⟩ := rdN_inv hd
                  cases hp : rdN (padLen (fromBE (sl b 24 32))) s2 with
                  | error e => rw [hp] at h; simp [Bind.bind, Except.bind] at h
                  | ok v3 =>
                      obtain ⟨pb, s3⟩ := v3
                      rw [hp] at h
                      simp only [Bind.bind, Except.bind] at h
                      obtain ⟨hrem3, hacc3, hlen3⟩ := rdN_inv hp
                      cases hs32 : rdN 32 s3 with
                      | error e =>
                          rw [hs32] at h
                          simp [Bind.bind, Except.bind] at h
                      | ok v4 =>
                          obtain ⟨sb, s4⟩ := v4
                          rw [hs32] at h
                          simp only [Bind.bind, Except.bind] at h
                          obtain ⟨hrem4, hacc4, hlen4⟩ := rdN_inv hs32
                          by_cases hsum : hash d = sb
                          · rw [if_pos hsum] at h
                            have hb4 : ∀ x ∈ s4.rem, x < 256 := by
                              intro x hx
                              apply hbytes
                              rw [hrem1, hrem2, hrem3, hrem4]
                              simp [hx]
                            obtain ⟨items', hlen', hpad', hrem', hacc',
                              helts', hssum'⟩ := ih s4 _ _ elts ssum s' hb4 h
                            refine ⟨(fromBE (sl b 8 16), d, pb) :: items',
                              by simp [hlen'], ?_, ?_, ?_, ?_, ?_⟩
                            · intro it hit
                              rcases List.mem_cons.1 hit with hh | hh
                              · rw [hh]
                                simpa [hlen2] using hlen3
                              · exact hpad' it hh
                            · have hrec : snapEltRecord hash
                                  (fromBE (sl b 8 16), d, pb) =
                                  b ++ (d ++ (pb ++ sb)) := by
                                rw [snapEltRecord]
                                have hbbyte : ∀ x ∈ b, x < 256 := by
                                  intro x hx
                                  exact hbytes x (by rw [hrem1]; simp [hx])
                                have e8 : toBE 8 (fromBE (sl b 8 16)) =
                                    sl b 8 16 :=
                                  sl_toBE8 hlen1 hbbyte 8 (by omega)
                                have e24 : toBE 8 d.length = sl b 24 32 := by
                                  rw [hlen2]
                                  exact sl_toBE8 hlen1 hbbyte 24 (by omega)
                                rw [show ((fromBE (sl b 8 16), d, pb) :
                                    Nat × List Nat × List Nat).2.1 = d from rfl]
                                rw [e8, e24, ← hsum]
                                conv_rhs => rw [← decomp32 hlen1]
                                rw [h08, h1624]
                                simp [List.append_assoc]
                              rw [hrem1, hrem2, hrem3, hrem4, hrem']
                              simp [hrec, List.append_assoc]
                            · rw [hacc', hacc4, hacc3, hacc2, hacc1]
                              have hrec : snapEltRecord hash
                                  (fromBE (sl b 8 16), d, pb) =
                                  b ++ (d ++ (pb ++ sb)) := by
                                rw [snapEltRecord]
                                have hbbyte : ∀ x ∈ b, x < 256 := by
                                  intro x hx
                                  exact hbytes x (by rw [hrem1]; simp [hx])
                                have e8 : toBE 8 (fromBE (sl b 8 16)) =
                                    sl b 8 16 :=
                                  sl_toBE8 hlen1 hbbyte 8 (by omega)
                                have e24 : toBE 8 d.length = sl b 24 32 := by
                                  rw [hlen2]
                                  exact sl_toBE8 hlen1 hbbyte 24 (by omega)
                                rw [show ((fromBE (sl b 8 16), d, pb) :
                                    Nat × List Nat × List Nat).2.1 = d from rfl]
                                rw [e8, e24, ← hsum]
                                conv_rhs => rw [← decomp32 hlen1]
                                rw [h08, h1624]
                                simp [List.append_assoc]
                              simp [hrec, List.append_assoc]
                            · rw [helts']
                              simp
                            · rw [hssum']
                              simp
                          · rw [if_neg hsum] at h
                            simp at h
            · rw [if_neg h1624] at h
              simp at h
          · rw [if_neg h08] at h
            simp at h

/-- C2 (amended): `read_snapshot` returns successfully only if the input
stream decomposes as a well-formed snapshot body followed by the
whole-stream checksum: every element record's stored checksum equals
`H(payload)` (the payload alone — not `H(EltId ‖ payload)` as the claim
states), the stored state-sum equals the XOR of the element checksums
(forced inside `snapBody` via `xorAll`), and the trailing whole-stream
checksum equals the hash of all preceding bytes. -/
theorem C2_read_snapshot_sound (hash : List Nat → List Nat)
    (bytes : List Nat) (elts : List (Nat × Elt))
    (hbytes : ∀ x ∈ bytes, x < 256)
    (h : readSnapshot hash bytes = .ok elts) :
    ∃ (date : List Nat) (items : List (Nat × List Nat × List Nat))
      (rest : List Nat),
      date.length = 8 ∧
      (∀ it ∈ items, it.2.2.length = padLen it.2.1.length) ∧
      bytes = snapBody hash date items ++
        (hash (snapBody hash date items) ++ rest) ∧
      elts = items.map (fun it => (it.1, ⟨it.2.1, hash it.2.1⟩)) := by
  rw [readSnapshot] at h
  cases hb : rdN 32 ⟨bytes, []⟩ with
  | error e => rw [hb] at h; simp [Bind.bind, Except.bind] at h
  | ok v =>
      obtain ⟨b, s1⟩ := v
      rw [hb] at h
      simp only [Bind.bind, Except.bind] at h
      obtain ⟨hrem1p, hacc1p, hlen1⟩ := rdN_inv hb
      have hrem1 : bytes = b ++ s1.rem := hrem1p
      have hacc1 : s1.acc = b := by simpa using hacc1p
      by_cases h08 : sl b 0 8 = bSNAPSHOT
      · rw [if_pos h08] at h
        by_cases h1624 : sl b 16 24 = bELEMENTS
        · rw [if_pos h1624] at h
          cases hel : parseSnapElts hash (fromBE (sl b 24 32)) s1 [] zero32 with
          | error e => rw [hel] at h; simp [Bind.bind, Except.bind] at h
          | ok v2 =>
              obtain ⟨elts0, ssum, s2⟩ := v2
              rw [hel] at h
              simp only [Bind.bind, Except.bind] at h
              have hb1 : ∀ x ∈ s1.rem, x < 256 := by
                intro x hx
                exact hbytes x (by rw [hrem1]; exact List.mem_append.2 (Or.inr hx))
              obtain ⟨items, hlenit, hpad, hremE, haccE, heltsE, hssumE⟩ :=
                parseSnapElts_inv hash _ s1 [] zero32 elts0 ssum s2 hb1 hel
              cases h2 : rdN 16 s2 with
              | error e => rw [h2] at h; simp [Bind.bind, Except.bind] at h
              | ok v3 =>
                  obtain ⟨b2, s3⟩ := v3
                  rw [h2] at h
                  simp only [Bind.bind, Except.bind] at h
                  obtain ⟨hrem2, hacc2, hlen2⟩ := rdN_inv h2
                  by_cases hst : sl b2 0 8 = bSTATESUM
                  · rw [if_pos hst] at h
                    by_cases hcnt : fromBE (sl b2 8 16) = fromBE (sl b 24 32)
                    · rw [if_pos hcnt] at h
                      cases h3 : rdN 32 s3 with
                      | error e =>
                          rw [h3] at h
                          simp [Bind.bind, Except.bind] at h
                      | ok v4 =>
                          obtain ⟨b3, s4⟩ := v4
                          rw [h3] at h
                          simp only [Bind.bind, Except.bind] at h
                          obtain ⟨hrem3, hacc3, hlen3⟩ := rdN_inv h3
                          by_cases hss : ssum = b3
                          · rw [if_pos hss] at h
                            by_cases h32r : 32 ≤ s4.rem.length
                            · rw [if_pos h32r] at h
                              by_cases htr : sl s4.rem 0 32 = hash s4.acc
                              · rw [if_pos htr] at h
                                injection h with helts
                                -- assemble the decomposition
                                have hbbyte : ∀ x ∈ b, x < 256 := by
                                  intro x hx
                                  exact hbytes x
                                    (by rw [hrem1]; exact List.mem_append.2 (Or.inl hx))
                                have hb2byte : ∀ x ∈ b2, x < 256 := by
                                  intro x hx
                                  apply hbytes
                                  rw [hrem1, hremE, hrem2]
                                  simp [hx]
                                have e24 : toBE 8 items.length = sl b 24 32 := by
                                  rw [hlenit]
                                  exact sl_toBE8 hlen1 hbbyte 24 (by omega)
                                have e816 : toBE 8 items.length = sl b2 8 16 := by
                                  rw [hlenit, ← hcnt]
                                  exact sl16_toBE8 hlen2 hb2byte
                                have hbdec : b = bSNAPSHOT ++ (sl b 8 16 ++
                                    (bELEMENTS ++ toBE 8 items.length)) := by
                                  conv_lhs => rw [← decomp32 hlen1]
                                  rw [h08, h1624, e24]
                                have hb2dec : b2 = bSTATESUM ++
                                    toBE 8 items.length := by
                                  conv_lhs => rw [← decomp16 hlen2]
                                  rw [hst, e816]
                                have hb3val : b3 = xorAll hash
                                    (items.map (fun it => it.2.1)) := by
                                  rw [← hss, hssumE, xorAll]
                                have hbody : snapBody hash (sl b 8 16) items =
                                    b ++ ((items.map (snapEltRecord hash)).flatten
                                      ++ (b2 ++ b3)) := by
                                  obtain ⟨d, hd⟩ : ∃ d, sl b 8 16 = d :=
                                    ⟨_, rfl⟩
                                  rw [hd] at hbdec ⊢
                                  rw [snapBody, hbdec, hb2dec, hb3val]
                                  simp [List.append_assoc]
                                have haccbody : s4.acc =
                                    snapBody hash (sl b 8 16) items := by
                                  rw [hacc3, hacc2, haccE, hacc1, hbody]
                                  simp [List.append_assoc]
                                refine ⟨sl b 8 16, items, s4.rem.drop 32, ?_,
                                  hpad, ?_, ?_⟩
                                · show (sl b 8 16).length = 8
                                  simp [sl, List.length_take, List.length_drop,
                                    hlen1]
                                · rw [hrem1, hremE, hrem2, hrem3]
                                  have hs4rem : s4.rem =
                                      hash (snapBody hash (sl b 8 16) items) ++
                                        s4.rem.drop 32 := by
                                    conv_lhs =>
                                      rw [← List.take_append_drop 32 s4.rem]
                                    rw [show s4.rem.take 32 =
                                      hash (snapBody hash (sl b 8 16) items) by
                                        rw [← haccbody, ← htr]; rfl]
                                  rw [hbody] at hs4rem
                                  rw [hbody]
                                  conv_lhs => rw [hs4rem]
                                  simp [List.append_assoc]
                                · rw [← helts, heltsE]
                                  simp
                              · rw [if_neg htr] at h
                                simp at h
                            · rw [if_neg h32r] at h
                              simp at h
                          · rw [if_neg hss] at h
                            simp at h
                    · rw [if_neg hcnt] at h
                      simp at h
                  · rw [if_neg hst] at h
                    simp at h
        · rw [if_neg h1624] at h
          simp at h
      · rw [if_neg h08] at h
        simp at h

/-- Counterexample to C2: a concrete snapshot stream whose single element
record stores the checksum `H(payload)` — which differs from the
`H(EltId ‖ payload)` the claim requires — is read *successfully* by
`read_snapshot`.  The code (snapshot.rs line 64) computes
`Sum::calculate(&data)` over the payload alone, so the claimed mismatch
is not a read error. -/
theorem C2_counterexample :
    readSnapshot testHash
        (snapBody testHash (List.replicate 8 0)
            [(5, [1, 2], List.replicate 14 0)] ++
          testHash (snapBody testHash (List.replicate 8 0)
            [(5, [1, 2], List.replicate 14 0)])) =
      .ok [(5, ⟨[1, 2], testHash [1, 2]⟩)] ∧
    testHash [1, 2] ≠ eltSum testHash 5 [1, 2] := by
  decide

/-- Witness for C2 at a concrete empty snapshot stream. -/
theorem C2_read_snapshot_sound_witness :
    ∃ (date : List Nat) (items : List (Nat × List Nat × List Nat))
      (rest : List Nat),
      date.length = 8 ∧
      (∀ it ∈ items, it.2.2.length = padLen it.2.1.length) ∧
      snapBody testHash (List.replicate 8 0) [] ++
          (testHash (snapBody testHash (List.replicate 8 0) []) ++ []) =
        snapBody testHash date items ++
          (testHash (snapBody testHash date items) ++ rest) ∧
      ([] : List (Nat × Elt)) =
        items.map (fun it => (it.1, ⟨it.2.1, testHash it.2.1⟩)) :=
  C2_read_snapshot_sound testHash
    (snapBody testHash (List.replicate 8 0) [] ++
      (testHash (snapBody testHash (List.replicate 8 0) []) ++ []))
    [] (by decide) (by decide)

end Pippin
